import Mathlib

/-!
# Line breaking (`linebreak.KnuthPlass`)

A shallow embedding of `src/knuthplass.go` and the properties of its output.

Modelling conventions:

* a Go `string` is a Lean `String`; `len(word)` is its UTF-8 byte count;
* a Go `int` is a 64-bit signed integer.  Lengths and indices are natural
  numbers (the prefix sums of the lengths of a slice that fits in memory stay far
  below `2^63`); `maxWidth` is an `Int`, and the one product that can leave
  the 64-bit range, `slack * slack * slack`, is reduced with `wrapInt64`;
* a `float64` entry of `minCost` is `none` for `+Inf` and `some v` for the
  finite value `v`.  Every finite value that occurs is an integer: it is the
  conversion of an `int`, or the sum of two such values, rounded to the
  nearest `float64` (`roundFloat64`); the sums of a slice that fits in memory
  stay far below the largest finite `float64`;
* the `for j := n; j > 0;` loop of the reconstruction is a recursion with
  fuel, and the result of `KnuthPlass` is `none` when the fuel runs out or an
  index is out of range.
-/

namespace Linebreak

/-- Go `len(word)`: the number of bytes of the string. -/
def len (word : String) : Nat := word.utf8ByteSize

/-- Go `strings.Join(elems, sep)`. -/
def strings.Join (elems : List String) (sep : String) : String :=
  sep.intercalate elems

/-- Go `strings.Split(s, " ")`: the pieces of `s` between single spaces. -/
def strings.Split (s : String) : List String :=
  s.split (fun c => c == ' ')

/-- Two's-complement reduction of an integer to the range of a 64-bit `int`. -/
def wrapInt64 (x : Int) : Int := (x + 2 ^ 63) % 2 ^ 64 - 2 ^ 63

/-- The `float64` nearest to the integer `x` (ties to even): integers below
`2^53` in absolute value are exact, larger ones keep 53 significant bits. -/
def roundFloat64 (x : Int) : Int :=
  let a := x.natAbs
  if a < 2 ^ 53 then x
  else
    let e := Nat.log2 a - 52
    let q := a / 2 ^ e
    let r := a % 2 ^ e
    let half := 2 ^ (e - 1)
    let q1 := if half < r ∨ (r = half ∧ q % 2 = 1) then q + 1 else q
    Int.sign x * ((q1 * 2 ^ e : Nat) : Int)

/-- Go `minCost[i] + cost` on `float64`: `+Inf` absorbs, finite sums are rounded. -/
def addFloat64 (a : Option Int) (c : Int) : Option Int :=
  a.map fun v => roundFloat64 (v + c)

/-- Go `x < y` on `float64` values that are finite or `+Inf`. -/
def ltFloat64 : Option Int → Option Int → Bool
  | some a, some b => decide (a < b)
  | some _, none => true
  | none, _ => false

/-- The prefix sums `cumLengths[i] = len(words[0]) + ... + len(words[i-1])`,
starting from the entry `acc`. -/
def cumLengthsFrom (acc : Nat) : List String → List Nat
  | [] => [acc]
  | word :: rest => acc :: cumLengthsFrom (acc + len word) rest

/-- The table `cumLengths` of `KnuthPlass`, of length `n + 1`. -/
def cumLengths (words : List String) : List Nat := cumLengthsFrom 0 words

/-- The two tables of the dynamic program. -/
structure Tables where
  minCost : List (Option Int)
  lineBreaks : List Nat

/-- The tables before the fill: `minCost` is `+Inf` except `minCost[0] = 0`,
`lineBreaks` is zero. -/
def initTables (n : Nat) : Tables :=
  { minCost := (List.replicate (n + 1) none).set 0 (some 0)
    lineBreaks := List.replicate (n + 1) 0 }

/-- Rendered length `totalLen` of `words[i:j]` as the inner loop computes it. -/
def totalLen (cum : List Nat) (i j : Nat) : Int :=
  let wordsLen : Int := (cum.getD j 0 : Int) - (cum.getD i 0 : Int)
  let spaces : Int := (j : Int) - (i : Int) - 1
  wordsLen + spaces

/-- The `cost` of the line `words[i:j]`: zero for the last line, else the
cube of the slack, computed in `int` and converted to `float64`.  Reducing
the product once is the same as reducing it after each multiplication. -/
def lineCost (maxWidth : Int) (n j : Nat) (tl : Int) : Int :=
  let slack := maxWidth - tl
  if j = n then 0 else roundFloat64 (wrapInt64 (slack * slack * slack))

/-- The body of the inner loop for a line `words[i:j]` that fits: the
candidate `minCost[i] + cost` replaces `minCost[j]` when it is strictly smaller. -/
def relax (cum : List Nat) (maxWidth : Int) (n i j : Nat) (t : Tables) : Tables :=
  let cost := lineCost maxWidth n j (totalLen cum i j)
  let cand := addFloat64 (t.minCost.getD i none) cost
  if ltFloat64 cand (t.minCost.getD j none) then
    { minCost := t.minCost.set j cand, lineBreaks := t.lineBreaks.set j i }
  else t

/-- The inner loop `for j := ...; j <= n; j++` from the index `j` on, with `k`
iterations left; it stops at the first `j` whose line is too long. -/
def innerLoop (cum : List Nat) (maxWidth : Int) (n i : Nat) : Nat → Nat → Tables → Tables
  | 0, _, t => t
  | k + 1, j, t =>
    if totalLen cum i j > maxWidth then t
    else innerLoop cum maxWidth n i k (j + 1) (relax cum maxWidth n i j t)

/-- One iteration of the outer loop, for the line start `i`. -/
def outerStep (cum : List Nat) (maxWidth : Int) (n : Nat) (t : Tables) (i : Nat) : Tables :=
  if t.minCost.getD i none = none then t
  else innerLoop cum maxWidth n i (n - i) (i + 1) t

/-- The fill of the tables: `for i := 0; i < n; i++`. -/
def fillTables (cum : List Nat) (maxWidth : Int) (n : Nat) : Tables :=
  (List.range n).foldl (outerStep cum maxWidth n) (initTables n)

/-- The backward walk `for j := n; j > 0; j = lineBreaks[j]`, which collects
the indices it visits. -/
def walkBack (lineBreaks : List Nat) : Nat → Nat → Option (List Nat)
  | _, 0 => some []
  | 0, _ + 1 => none
  | fuel + 1, j + 1 =>
    match lineBreaks[j + 1]? with
    | none => none
    | some i => (walkBack lineBreaks fuel i).map fun rest => (j + 1) :: rest

/-- The words `words[i:j]` of a Go slice expression. -/
def slice (words : List String) (i j : Nat) : List String :=
  (words.drop i).take (j - i)

/-- The lines `strings.Join(words[start:end], " ")` for the consecutive
pairs `start, end` of `breakIndices`. -/
def buildLines (words : List String) (breakIndices : List Nat) : List String :=
  (breakIndices.zip breakIndices.tail).map fun p =>
    strings.Join (slice words p.1 p.2) " "

/-- The function `KnuthPlass` of `src/knuthplass.go`. -/
def KnuthPlass (words : List String) (maxWidth : Int) : Option (List String) :=
  if maxWidth ≤ 0 then some []
  else
    let n := words.length
    if n = 0 then some []
    else
      let t := fillTables (cumLengths words) maxWidth n
      (walkBack t.lineBreaks n n).map fun visited =>
        buildLines words (visited ++ [0]).reverse


/-! ## Specification vocabulary -/

/-- Rendered width of a line: the lengths of its words plus one separator
for every gap between two words. -/
def renderedWidth (ws : List String) : Nat :=
  (ws.map len).sum + (ws.length - 1)

/-- Total penalty of a list of rendered lines: the cube of the unused width
of every line except the last, as an exact integer. -/
def totalPenalty (maxWidth : Int) (lines : List String) : Int :=
  (lines.dropLast.map fun line => (maxWidth - (len line : Int)) ^ 3).sum

/-- A feasible partition of the words: break indices `0 = b0 < ... < bk = n`
whose lines all have rendered width at most `maxWidth`. -/
def Feasible (words : List String) (maxWidth : Int) (bs : List Nat) : Prop :=
  bs.head? = some 0 ∧ bs.getLast? = some words.length ∧
  List.Chain' (fun a b => a < b ∧ (renderedWidth (slice words a b) : Int) ≤ maxWidth) bs

/-- Greedy packing with the line `cur` open: the next word joins the line
when the line still fits, else it starts the next line. -/
def greedyFrom (maxWidth : Int) : List String → List String → List (List String)
  | cur, [] => [cur]
  | cur, word :: rest =>
    if (renderedWidth (cur ++ [word]) : Int) ≤ maxWidth then
      greedyFrom maxWidth (cur ++ [word]) rest
    else cur :: greedyFrom maxWidth [word] rest

/-- The greedy (pack-until-overflow) partition of the words into lines. -/
def greedy (maxWidth : Int) : List String → List (List String)
  | [] => []
  | word :: rest => greedyFrom maxWidth [word] rest

/-! ## The invariant of the fill -/

/-- The value `minCost[i] + cost` that the pair `(i, j)` offers to `minCost[j]`
when `minCost[i]` is the finite value `vi`. -/
def candidate (words : List String) (maxWidth : Int) (vi : Int) (i j : Nat) : Int :=
  roundFloat64 (vi + lineCost maxWidth words.length j (totalLen (cumLengths words) i j))

/-- The state of the tables once the pairs `(i, j)` with `examined i j` have been
relaxed: every finite entry was produced by an examined, fitting pair recorded
in `lineBreaks`, and no examined, fitting pair offers a smaller value, nor the
same value from an earlier line start. -/
structure FillInv (words : List String) (maxWidth : Int) (examined : Nat → Nat → Prop)
    (t : Tables) : Prop where
  length_minCost : t.minCost.length = words.length + 1
  length_lineBreaks : t.lineBreaks.length = words.length + 1
  start : t.minCost.getD 0 none = some 0
  unreached : ∀ j, j ≤ words.length → t.minCost.getD j none = none →
    t.lineBreaks.getD j 0 = 0
  pointer : ∀ j vj, 1 ≤ j → j ≤ words.length → t.minCost.getD j none = some vj →
    t.lineBreaks.getD j 0 < j ∧ examined (t.lineBreaks.getD j 0) j ∧
    totalLen (cumLengths words) (t.lineBreaks.getD j 0) j ≤ maxWidth ∧
    ∃ vi, t.minCost.getD (t.lineBreaks.getD j 0) none = some vi ∧
      vj = candidate words maxWidth vi (t.lineBreaks.getD j 0) j
  relaxed : ∀ i j vi, i < j → j ≤ words.length → examined i j →
    totalLen (cumLengths words) i j ≤ maxWidth → t.minCost.getD i none = some vi →
    ∃ vj, t.minCost.getD j none = some vj ∧ vj ≤ candidate words maxWidth vi i j ∧
      (vj = candidate words maxWidth vi i j → t.lineBreaks.getD j 0 ≤ i)

/-- The relation between two consecutive break indices `a`, `b`: the line
`words[a:b]` ends at `b` and starts at the back-pointer of `b`. -/
def BreakStep (lineBreaks : List Nat) (n : Nat) (a b : Nat) : Prop :=
  a < b ∧ b ≤ n ∧ a = lineBreaks.getD b 0

/-- Exact penalty of the line `words[a:b]`: zero for the line that ends the
paragraph, else the cube of its unused width. -/
def penalty (words : List String) (maxWidth : Int) (a b : Nat) : Int :=
  if b = words.length then 0 else (maxWidth - (renderedWidth (slice words a b) : Int)) ^ 3

/-- Exact total penalty of the partition cut at the break indices `bs`. -/
def pathCost (words : List String) (maxWidth : Int) : List Nat → Int
  | a :: b :: rest => penalty words maxWidth a b + pathCost words maxWidth (b :: rest)
  | _ => 0

/-- The range in which the cost arithmetic of the fill is exact: no `int`
product wraps and every `float64` sum stays below `2^53`. -/
def ExactRange (words : List String) (maxWidth : Int) : Prop :=
  (words.length : Int) * maxWidth ^ 3 < 2 ^ 53

instance ExactRange.decidable (words : List String) (maxWidth : Int) :
    Decidable (ExactRange words maxWidth) :=
  inferInstanceAs (Decidable ((words.length : Int) * maxWidth ^ 3 < 2 ^ 53))

/-- A partition of the prefix `words[0:j]` into lines that fit: break indices
`0 = b0 < ... < bk = j` whose lines all have rendered width at most
`maxWidth`. -/
def FeasiblePrefix (words : List String) (maxWidth : Int) (j : Nat) (bs : List Nat) : Prop :=
  bs.head? = some 0 ∧ bs.getLast? = some j ∧
  List.Chain' (fun a b => a < b ∧ (renderedWidth (slice words a b) : Int) ≤ maxWidth) bs

/-- The inner loop without early termination, as the specification words it:
every `j` in `(i, n]` is examined, and a line that is too long is skipped. -/
def innerLoopNoBreak (cum : List Nat) (maxWidth : Int) (n i : Nat) :
    Nat → Nat → Tables → Tables
  | 0, _, t => t
  | k + 1, j, t =>
    if totalLen cum i j > maxWidth then innerLoopNoBreak cum maxWidth n i k (j + 1) t
    else innerLoopNoBreak cum maxWidth n i k (j + 1) (relax cum maxWidth n i j t)

/-- One iteration of the outer loop of the fill without early termination. -/
def outerStepNoBreak (cum : List Nat) (maxWidth : Int) (n : Nat) (t : Tables) (i : Nat) :
    Tables :=
  if t.minCost.getD i none = none then t
  else innerLoopNoBreak cum maxWidth n i (n - i) (i + 1) t

/-- The fill of the tables without early termination. -/
def fillTablesNoBreak (cum : List Nat) (maxWidth : Int) (n : Nat) : Tables :=
  (List.range n).foldl (outerStepNoBreak cum maxWidth n) (initTables n)

/-- The line breaker built on the fill without early termination. -/
def KnuthPlassNoBreak (words : List String) (maxWidth : Int) : Option (List String) :=
  if maxWidth ≤ 0 then some []
  else
    let n := words.length
    if n = 0 then some []
    else
      let t := fillTablesNoBreak (cumLengths words) maxWidth n
      (walkBack t.lineBreaks n n).map fun visited =>
        buildLines words (visited ++ [0]).reverse

/-- The entry `minCost[j]` after the fill. -/
def finalMinCost (words : List String) (maxWidth : Int) (j : Nat) : Option Int :=
  (fillTables (cumLengths words) maxWidth words.length).minCost.getD j none

/-- The entry `lineBreaks[j]` after the fill. -/
def finalLineBreak (words : List String) (maxWidth : Int) (j : Nat) : Nat :=
  (fillTables (cumLengths words) maxWidth words.length).lineBreaks.getD j 0

/-! ## Lists used as tables -/

theorem getD_set_eq {α : Type} (l : List α) (j : Nat) (a d : α) (h : j < l.length) :
    (l.set j a).getD j d = a := by
  simp [List.getD_eq_getElem?_getD, List.getElem?_set, h]

theorem getD_set_ne {α : Type} (l : List α) (i j : Nat) (a d : α) (h : i ≠ j) :
    (l.set i a).getD j d = l.getD j d := by
  simp [List.getD_eq_getElem?_getD, List.getElem?_set, h]

theorem getD_replicate_self {α : Type} (n j : Nat) (a : α) :
    (List.replicate n a).getD j a = a := by
  simp [List.getD_eq_getElem?_getD, List.getElem?_replicate]
  split <;> simp

/-! ## Prefix sums and rendered widths -/

theorem cumLengthsFrom_length (acc : Nat) (words : List String) :
    (cumLengthsFrom acc words).length = words.length + 1 := by
  induction words generalizing acc with
  | nil => rfl
  | cons w ws ih => simp [cumLengthsFrom, ih]

theorem cumLengthsFrom_getD (acc : Nat) (words : List String) (j : Nat)
    (hj : j ≤ words.length) :
    (cumLengthsFrom acc words).getD j 0 = acc + ((words.take j).map len).sum := by
  induction words generalizing acc j with
  | nil =>
    have : j = 0 := by simpa using hj
    subst this; simp [cumLengthsFrom]
  | cons w ws ih =>
    cases j with
    | zero => simp [cumLengthsFrom]
    | succ j =>
      have hj1 : j ≤ ws.length := by simpa using hj
      rw [cumLengthsFrom, List.getD_cons_succ, ih _ _ hj1, List.take_succ_cons, List.map_cons,
        List.sum_cons]
      omega

theorem cumLengths_getD (words : List String) (j : Nat) (hj : j ≤ words.length) :
    (cumLengths words).getD j 0 = ((words.take j).map len).sum := by
  rw [cumLengths, cumLengthsFrom_getD 0 words j hj, Nat.zero_add]

theorem slice_length (words : List String) (i j : Nat) (hj : j ≤ words.length) :
    (slice words i j).length = j - i := by
  simp [slice]; omega

theorem sum_len_slice (words : List String) (i j : Nat) (hij : i ≤ j) :
    ((words.take i).map len).sum + ((slice words i j).map len).sum
      = ((words.take j).map len).sum := by
  have h : words.take j = words.take i ++ slice words i j := by
    have : j = i + (j - i) := by omega
    rw [slice, this, List.take_add]
    simp
  rw [h]; simp

/-- The `totalLen` of the inner loop is the rendered width of `words[i:j]`. -/
theorem totalLen_eq (words : List String) (i j : Nat) (hij : i < j)
    (hj : j ≤ words.length) :
    totalLen (cumLengths words) i j = (renderedWidth (slice words i j) : Int) := by
  have h := sum_len_slice words i j (Nat.le_of_lt hij)
  simp only [totalLen, renderedWidth, cumLengths_getD words j hj,
    cumLengths_getD words i (by omega), slice_length words i j hj]
  omega

theorem intercalate_go_eq (acc sep : String) (ws : List String) :
    (String.intercalate.go acc sep ws).data
      = acc.data ++ (ws.map fun w => sep.data ++ w.data).flatten := by
  induction ws generalizing acc with
  | nil => simp [String.intercalate.go]
  | cons w ws ih => simp [String.intercalate.go, ih, List.append_assoc]

theorem len_eq (s : String) : len s = String.utf8Len s.data := rfl

theorem utf8Len_flatten_sep (ws : List String) :
    String.utf8Len ((ws.map fun w => " ".data ++ w.data).flatten)
      = (ws.map len).sum + ws.length := by
  induction ws with
  | nil => rfl
  | cons w ws ih =>
    simp only [List.map_cons, List.flatten_cons, String.utf8Len_append, ih, List.sum_cons,
      List.length_cons, len_eq]
    have : String.utf8Len [' '] = 1 := by decide
    omega

/-- The byte length of a joined line is its rendered width. -/
theorem len_Join (ws : List String) :
    len (strings.Join ws " ") = renderedWidth ws := by
  cases ws with
  | nil => rfl
  | cons w ws =>
    simp only [strings.Join, String.intercalate, len_eq, intercalate_go_eq,
      String.utf8Len_append, utf8Len_flatten_sep, renderedWidth, List.map_cons, List.sum_cons,
      List.length_cons]
    omega

theorem cumLengths_mono (words : List String) (a b : Nat) (hab : a ≤ b)
    (hb : b ≤ words.length) :
    (cumLengths words).getD a 0 ≤ (cumLengths words).getD b 0 := by
  rw [cumLengths_getD words a (by omega), cumLengths_getD words b hb,
    ← sum_len_slice words a b hab]
  omega

/-- For a fixed line start the rendered width grows strictly with the line end. -/
theorem totalLen_strictMono (words : List String) (i j j' : Nat) (hj : j < j')
    (hn : j' ≤ words.length) :
    totalLen (cumLengths words) i j < totalLen (cumLengths words) i j' := by
  have h := cumLengths_mono words j j' (Nat.le_of_lt hj) hn
  simp only [totalLen]
  omega

/-! ## The invariant of the fill: preservation -/

theorem FillInv.change {words : List String} {maxWidth : Int} {ex ex' : Nat → Nat → Prop}
    {t : Tables} (h : FillInv words maxWidth ex t)
    (h1 : ∀ i j, i < j → j ≤ words.length → ex i j → ex' i j)
    (h2 : ∀ i j, i < j → j ≤ words.length → ex' i j →
      totalLen (cumLengths words) i j ≤ maxWidth → ex i j) :
    FillInv words maxWidth ex' t where
  length_minCost := h.length_minCost
  length_lineBreaks := h.length_lineBreaks
  start := h.start
  unreached := h.unreached
  pointer := fun j vj h1j hjn hv => by
    obtain ⟨a, b, c, d⟩ := h.pointer j vj h1j hjn hv
    exact ⟨a, h1 _ _ a hjn b, c, d⟩
  relaxed := fun i j vi hij hjn hex hfit hv =>
    h.relaxed i j vi hij hjn (h2 i j hij hjn hex hfit) hfit hv

theorem initTables_inv (words : List String) (maxWidth : Int) :
    FillInv words maxWidth (fun i _ => i < 0) (initTables words.length) where
  length_minCost := by simp [initTables]
  length_lineBreaks := by simp [initTables]
  start := by simp [initTables, getD_set_eq]
  unreached := fun j _ _ => by simp [initTables, getD_replicate_self]
  pointer := fun j vj h1j hjn hv => by
    have : j ≠ 0 := by omega
    simp only [initTables] at hv
    rw [getD_set_ne _ _ _ _ _ (Ne.symm this), getD_replicate_self] at hv
    cases hv
  relaxed := fun i j vi _ _ hex _ _ => absurd hex (Nat.not_lt_zero i)

theorem relax_inv {words : List String} {maxWidth : Int} {m j : Nat} {t : Tables} {vm : Int}
    (hmj : m < j) (hjn : j ≤ words.length) (hvm : t.minCost.getD m none = some vm)
    (hfit : totalLen (cumLengths words) m j ≤ maxWidth)
    (h : FillInv words maxWidth (fun i j' => i < m ∨ (i = m ∧ j' < j)) t) :
    FillInv words maxWidth (fun i j' => i < m ∨ (i = m ∧ j' < j + 1))
      (relax (cumLengths words) maxWidth words.length m j t) := by
  have hex : ∀ i j', (i < m ∨ (i = m ∧ j' < j)) → i ≤ m := by
    intro i j' hd; omega
  by_cases hup : ltFloat64 (some (candidate words maxWidth vm m j)) (t.minCost.getD j none) = true
  · -- the entry `j` is overwritten
    have hrel : relax (cumLengths words) maxWidth words.length m j t
        = { minCost := t.minCost.set j (some (candidate words maxWidth vm m j)),
            lineBreaks := t.lineBreaks.set j m } := by
      simp only [relax, hvm, addFloat64, Option.map_some', candidate] at hup ⊢
      rw [if_pos hup]
    rw [hrel]
    have hjlen : j < t.minCost.length := by rw [h.length_minCost]; omega
    have hjlen' : j < t.lineBreaks.length := by rw [h.length_lineBreaks]; omega
    have hold : ∀ vj, t.minCost.getD j none = some vj → candidate words maxWidth vm m j < vj := by
      intro vj hvj
      rw [hvj] at hup
      simpa [ltFloat64] using hup
    refine ⟨by simp [h.length_minCost], by simp [h.length_lineBreaks], ?_, ?_, ?_, ?_⟩
    · show (t.minCost.set j _).getD 0 none = some 0
      rw [getD_set_ne _ _ _ _ _ (by omega)]; exact h.start
    · intro j' hj' hnone
      show (t.lineBreaks.set j m).getD j' 0 = 0
      have hne : j ≠ j' := by
        rintro rfl
        simp only [getD_set_eq _ _ _ _ hjlen] at hnone
        cases hnone
      rw [getD_set_ne _ _ _ _ _ hne]
      simp only [getD_set_ne _ _ _ _ _ hne] at hnone
      exact h.unreached j' hj' hnone
    · intro j' vj h1 hj' hv
      show (t.lineBreaks.set j m).getD j' 0 < j' ∧ _ ∧
        totalLen (cumLengths words) ((t.lineBreaks.set j m).getD j' 0) j' ≤ maxWidth ∧
        ∃ vi, (t.minCost.set j _).getD ((t.lineBreaks.set j m).getD j' 0) none = some vi ∧
          vj = candidate words maxWidth vi ((t.lineBreaks.set j m).getD j' 0) j'
      by_cases hne : j = j'
      · subst hne
        simp only [getD_set_eq _ _ _ _ hjlen] at hv
        rw [getD_set_eq _ _ _ _ hjlen']
        refine ⟨hmj, Or.inr ⟨rfl, Nat.lt_succ_self _⟩, hfit, vm, ?_, ?_⟩
        · rw [getD_set_ne _ _ _ _ _ (by omega)]; exact hvm
        · cases hv; rfl
      · simp only [getD_set_ne _ _ _ _ _ hne] at hv
        rw [getD_set_ne _ _ _ _ _ hne]
        obtain ⟨a, b, c, vi, d, e⟩ := h.pointer j' vj h1 hj' hv
        have hle := hex _ _ b
        refine ⟨a, ?_, c, vi, ?_, e⟩
        · rcases b with b | ⟨b1, b2⟩
          · exact Or.inl b
          · exact Or.inr ⟨b1, by omega⟩
        · rw [getD_set_ne _ _ _ _ _ (by omega)]; exact d
    · intro i j' vi hij hj' hd hf hv
      show ∃ vj, (t.minCost.set j _).getD j' none = some vj ∧ vj ≤ candidate words maxWidth vi i j' ∧
        (vj = candidate words maxWidth vi i j' → (t.lineBreaks.set j m).getD j' 0 ≤ i)
      have him : i ≤ m := by omega
      have hv' : t.minCost.getD i none = some vi := by
        have : (t.minCost.set j (some (candidate words maxWidth vm m j))).getD i none
            = some vi := hv
        rwa [getD_set_ne _ _ _ _ _ (by omega)] at this
      by_cases hne : j = j'
      · subst hne
        rw [getD_set_eq _ _ _ _ hjlen, getD_set_eq _ _ _ _ hjlen']
        by_cases hold' : i < m ∨ (i = m ∧ j < j)
        · obtain ⟨vj, e1, e2, _⟩ := h.relaxed i j vi hij hj' hold' hf hv'
          have := hold vj e1
          exact ⟨_, rfl, by omega, fun heq => by omega⟩
        · have him' : i = m := by omega
          subst him'
          rw [hvm] at hv'; cases hv'
          exact ⟨_, rfl, le_refl _, fun _ => le_refl _⟩
      · rw [getD_set_ne _ _ _ _ _ hne, getD_set_ne _ _ _ _ _ hne]
        have hold' : i < m ∨ (i = m ∧ j' < j) := by omega
        exact h.relaxed i j' vi hij hj' hold' hf hv'
  · -- the entry `j` is kept
    have hrel : relax (cumLengths words) maxWidth words.length m j t = t := by
      simp only [relax, hvm, addFloat64, Option.map_some', candidate] at hup ⊢
      rw [if_neg hup]
    rw [hrel]
    have h1j : 1 ≤ j := by omega
    obtain ⟨vj, hvj, hle⟩ : ∃ vj, t.minCost.getD j none = some vj ∧
        vj ≤ candidate words maxWidth vm m j := by
      cases hc : t.minCost.getD j none with
      | none => rw [hc] at hup; simp [ltFloat64] at hup
      | some vj =>
        rw [hc] at hup
        refine ⟨vj, rfl, ?_⟩
        simpa [ltFloat64] using hup
    refine ⟨h.length_minCost, h.length_lineBreaks, h.start, h.unreached, ?_, ?_⟩
    · intro j' vj' h1 hj' hv
      obtain ⟨a, b, c, d⟩ := h.pointer j' vj' h1 hj' hv
      refine ⟨a, ?_, c, d⟩
      rcases b with b | ⟨b1, b2⟩
      · exact Or.inl b
      · exact Or.inr ⟨b1, by omega⟩
    · intro i j' vi hij hj' hd hf hv
      by_cases hold' : i < m ∨ (i = m ∧ j' < j)
      · exact h.relaxed i j' vi hij hj' hold' hf hv
      · have him : i = m := by omega
        have hjj : j' = j := by omega
        subst him; subst hjj
        rw [hvm] at hv; cases hv
        obtain ⟨_, b, _, _⟩ := h.pointer j' vj h1j hjn hvj
        exact ⟨vj, hvj, hle, fun _ => hex _ _ b⟩

theorem innerLoop_inv {words : List String} {maxWidth : Int} {m : Nat} :
    ∀ (k j : Nat) (t : Tables) (vm : Int), j + k = words.length + 1 → m < j →
      t.minCost.getD m none = some vm →
      FillInv words maxWidth (fun i j' => i < m ∨ (i = m ∧ j' < j)) t →
      FillInv words maxWidth (fun i _ => i < m + 1)
        (innerLoop (cumLengths words) maxWidth words.length m k j t)
  | 0, j, t, _, hk, _, _, h => by
    refine h.change (fun i j' _ _ hd => by omega) (fun i j' _ hj' hd _ => by omega)
  | k + 1, j, t, vm, hk, hmj, hvm, h => by
    have hjn : j ≤ words.length := by omega
    rw [innerLoop]
    by_cases hbr : totalLen (cumLengths words) m j > maxWidth
    · rw [if_pos hbr]
      refine h.change (fun i j' _ _ hd => by omega) (fun i j' hij hj' hd hf => ?_)
      by_cases him : i < m
      · exact Or.inl him
      · have him' : i = m := by omega
        subst him'
        by_cases hjj : j' < j
        · exact Or.inr ⟨rfl, hjj⟩
        · exfalso
          rcases Nat.eq_or_lt_of_le (Nat.le_of_not_lt hjj) with e | e
          · subst e; omega
          · have := totalLen_strictMono words i j j' e hj'
            omega
    · rw [if_neg hbr]
      have hfit : totalLen (cumLengths words) m j ≤ maxWidth := by omega
      have h' := relax_inv hmj hjn hvm hfit h
      have hvm' : (relax (cumLengths words) maxWidth words.length m j t).minCost.getD m none
          = some vm := by
        obtain ⟨vj, e1, e2, _⟩ := h'.relaxed m j vm hmj hjn (Or.inr ⟨rfl, Nat.lt_succ_self _⟩) hfit
          (by
            simp only [relax]
            split
            · show (t.minCost.set j _).getD m none = some vm
              rw [getD_set_ne _ _ _ _ _ (by omega)]; exact hvm
            · exact hvm)
        simp only [relax]
        split
        · show (t.minCost.set j _).getD m none = some vm
          rw [getD_set_ne _ _ _ _ _ (by omega)]; exact hvm
        · exact hvm
      exact innerLoop_inv k (j + 1) _ vm (by omega) (by omega) hvm' h'

theorem outerStep_inv {words : List String} {maxWidth : Int} {m : Nat} {t : Tables}
    (hm : m < words.length) (h : FillInv words maxWidth (fun i _ => i < m) t) :
    FillInv words maxWidth (fun i _ => i < m + 1)
      (outerStep (cumLengths words) maxWidth words.length t m) := by
  rw [outerStep]
  cases hc : t.minCost.getD m none with
  | none =>
    rw [if_pos rfl]
    refine ⟨h.length_minCost, h.length_lineBreaks, h.start, h.unreached, ?_, ?_⟩
    · intro j vj h1 hj hv
      obtain ⟨a, b, c, d⟩ := h.pointer j vj h1 hj hv
      exact ⟨a, Nat.lt_succ_of_lt b, c, d⟩
    · intro i j vi hij hj hd hf hv
      by_cases him : i < m
      · exact h.relaxed i j vi hij hj him hf hv
      · have him' : i = m := by omega
        subst him'
        rw [hc] at hv; cases hv
  | some vm =>
    rw [if_neg (by simp)]
    exact innerLoop_inv (words.length - m) (m + 1) t vm (by omega) (by omega) hc
      (h.change (fun i j _ _ hd => Or.inl hd) (fun i j _ _ hd _ => by omega))

/-- The invariant holds for the filled tables, with every pair examined. -/
theorem fillTables_prefix_inv (words : List String) (maxWidth : Int) :
    ∀ m, m ≤ words.length →
      FillInv words maxWidth (fun i _ => i < m)
        ((List.range m).foldl (outerStep (cumLengths words) maxWidth words.length)
          (initTables words.length))
  | 0, _ => by simpa using initTables_inv words maxWidth
  | m + 1, hm => by
    rw [List.range_succ, List.foldl_append]
    exact outerStep_inv (by omega) (fillTables_prefix_inv words maxWidth m (by omega))

theorem fillTables_inv (words : List String) (maxWidth : Int) :
    FillInv words maxWidth (fun i _ => i < words.length)
      (fillTables (cumLengths words) maxWidth words.length) :=
  fillTables_prefix_inv words maxWidth words.length (le_refl _)

/-! ## The back-pointers and the reconstruction -/

/-- Every back-pointer of the filled table points strictly backwards. -/
theorem lineBreaks_lt (words : List String) (maxWidth : Int) (j : Nat) (h1 : 1 ≤ j)
    (hj : j ≤ words.length) :
    (fillTables (cumLengths words) maxWidth words.length).lineBreaks.getD j 0 < j := by
  have h := fillTables_inv words maxWidth
  cases hc : (fillTables (cumLengths words) maxWidth words.length).minCost.getD j none with
  | none => rw [h.unreached j hj hc]; omega
  | some vj => exact (h.pointer j vj h1 hj hc).1

theorem walkBack_spec (lineBreaks : List Nat) (n : Nat) (hlen : lineBreaks.length = n + 1)
    (hlt : ∀ j, 1 ≤ j → j ≤ n → lineBreaks.getD j 0 < j) :
    ∀ (fuel j : Nat), j ≤ fuel → j ≤ n →
      ∃ visited, walkBack lineBreaks fuel j = some visited ∧
        (visited ++ [0]).head? = some j ∧
        List.Chain' (flip (BreakStep lineBreaks n)) (visited ++ [0])
  | _, 0, _, _ => ⟨[], by cases ‹Nat› <;> rfl, rfl, by simp⟩
  | 0, j + 1, hf, _ => absurd hf (by omega)
  | fuel + 1, j + 1, hf, hj => by
    have hget : lineBreaks[j + 1]? = some (lineBreaks.getD (j + 1) 0) := by
      rw [List.getD_eq_getElem?_getD, List.getElem?_eq_getElem (by omega)]
      rfl
    have hi := hlt (j + 1) (by omega) hj
    obtain ⟨v, hv, hhead, hchain⟩ :=
      walkBack_spec lineBreaks n hlen hlt fuel (lineBreaks.getD (j + 1) 0) (by omega) (by omega)
    refine ⟨(j + 1) :: v, ?_, rfl, ?_⟩
    · rw [walkBack, hget]; simp only [hv, Option.map_some']
    · rw [List.cons_append, List.chain'_cons']
      refine ⟨?_, hchain⟩
      intro y hy
      rw [hhead] at hy
      cases hy
      exact ⟨hi, hj, rfl⟩

theorem slice_self (words : List String) : slice words 0 words.length = words := by
  simp [slice]

theorem slice_append (words : List String) (a b c : Nat) (hab : a ≤ b) (hbc : b ≤ c) :
    slice words a b ++ slice words b c = slice words a c := by
  have h1 : c - a = (b - a) + (c - b) := by omega
  have h2 : b = a + (b - a) := by omega
  rw [slice, slice, slice, h1, List.take_add]
  congr 2
  rw [List.drop_drop, ← h2]

/-- The word runs cut out by an increasing list of break indices concatenate
to the run between its first and its last index. -/
theorem flatten_slices (words : List String) (n : Nat) :
    ∀ (bs : List Nat) (a b : Nat), bs.head? = some a → bs.getLast? = some b →
      List.Chain' (fun x y => x < y ∧ y ≤ n) bs →
      ((bs.zip bs.tail).map fun p => slice words p.1 p.2).flatten = slice words a b ∧ a ≤ b
  | [], _, _, h, _, _ => by cases h
  | [x], a, b, ha, hb, _ => by
    simp at ha hb
    subst ha; subst hb
    simp [slice]
  | x :: y :: rest, a, b, ha, hb, hc => by
    simp only [List.head?_cons, Option.some.injEq] at ha
    subst ha
    rw [List.chain'_cons] at hc
    have hb' : (y :: rest).getLast? = some b := by
      rwa [List.getLast?_cons_cons] at hb
    obtain ⟨ih, hle⟩ := flatten_slices words n (y :: rest) y b rfl hb' hc.2
    constructor
    · simp only [List.tail_cons, List.zip_cons_cons, List.map_cons, List.flatten_cons]
      simp only [List.tail_cons] at ih
      rw [ih]
      exact slice_append words x y b (Nat.le_of_lt hc.1.1) hle
    · omega

/-- The shape of the result on a proper input: the lines are cut at a list of
break indices that runs from `0` to `n` along the back-pointers. -/
theorem KnuthPlass_eq (words : List String) (maxWidth : Int) (hne : words ≠ [])
    (hW : 0 < maxWidth) :
    ∃ bs : List Nat, KnuthPlass words maxWidth = some (buildLines words bs) ∧
      bs.head? = some 0 ∧ bs.getLast? = some words.length ∧
      List.Chain' (BreakStep (fillTables (cumLengths words) maxWidth words.length).lineBreaks
        words.length) bs := by
  have hn : words.length ≠ 0 := by
    intro h; exact hne (List.length_eq_zero.mp h)
  have hinv := fillTables_inv words maxWidth
  obtain ⟨v, hv, hhead, hchain⟩ := walkBack_spec _ words.length hinv.length_lineBreaks
    (lineBreaks_lt words maxWidth) words.length words.length (le_refl _) (le_refl _)
  refine ⟨(v ++ [0]).reverse, ?_, ?_, ?_, ?_⟩
  · simp only [KnuthPlass, if_neg (not_le.mpr hW), if_neg hn, hv, Option.map_some']
  · simp
  · rw [List.getLast?_reverse]; exact hhead
  · rw [List.chain'_reverse]
    exact hchain

/-! ## Consequences for the returned lines -/

theorem chain_zip_tail {R : Nat → Nat → Prop} :
    ∀ (bs : List Nat), List.Chain' R bs → ∀ p ∈ bs.zip bs.tail, R p.1 p.2
  | [], _, p, hp => by simp at hp
  | [_], _, p, hp => by simp at hp
  | x :: y :: rest, hc, p, hp => by
    rw [List.chain'_cons] at hc
    simp only [List.tail_cons, List.zip_cons_cons, List.mem_cons] at hp
    rcases hp with rfl | hp
    · exact hc.1
    · exact chain_zip_tail (y :: rest) hc.2 p (by simpa using hp)

theorem length_ge_two_of_ends (bs : List Nat) (a b : Nat) (hab : a ≠ b)
    (ha : bs.head? = some a) (hb : bs.getLast? = some b) : 2 ≤ bs.length := by
  match bs, ha, hb with
  | [x], ha, hb =>
    simp at ha hb
    omega
  | _ :: _ :: _, _, _ => simp

theorem mem_of_mem_slice {words : List String} {i j : Nat} {w : String}
    (h : w ∈ slice words i j) : w ∈ words :=
  List.mem_of_mem_drop (List.mem_of_mem_take h)

theorem renderedWidth_singleton (w : String) : renderedWidth [w] = len w := by
  simp [renderedWidth]

theorem Join_singleton (w : String) : strings.Join [w] " " = w := by
  simp [strings.Join, String.intercalate, String.intercalate.go]

/-- A run of exactly one word is that word. -/
theorem slice_succ (words : List String) (j : Nat) (hj : j < words.length) :
    ∃ w, w ∈ words ∧ slice words j (j + 1) = [w] := by
  have hlen := slice_length words j (j + 1) (by omega)
  match hs : slice words j (j + 1), hlen with
  | [w], _ => exact ⟨w, mem_of_mem_slice (by rw [hs]; simp), rfl⟩
  | [], h => simp at h
  | _ :: _ :: _, h => simp at h

/-- When every word fits on a line of its own, every prefix is reachable. -/
theorem minCost_finite_of_fit (words : List String) (maxWidth : Int)
    (hfit : ∀ w ∈ words, (len w : Int) ≤ maxWidth) :
    ∀ j, j ≤ words.length →
      ∃ v, (fillTables (cumLengths words) maxWidth words.length).minCost.getD j none = some v
  | 0, _ => ⟨0, (fillTables_inv words maxWidth).start⟩
  | j + 1, hj => by
    obtain ⟨vi, hvi⟩ := minCost_finite_of_fit words maxWidth hfit j (by omega)
    obtain ⟨w, hw, hs⟩ := slice_succ words j (by omega)
    have hfitj : totalLen (cumLengths words) j (j + 1) ≤ maxWidth := by
      rw [totalLen_eq words j (j + 1) (by omega) hj, hs, renderedWidth_singleton]
      exact hfit w hw
    obtain ⟨vj, h1, _⟩ := (fillTables_inv words maxWidth).relaxed j (j + 1) vi (by omega) hj
      (by omega) hfitj hvi
    exact ⟨vj, h1⟩

/-- A line that ends at a reachable index fits in `maxWidth`. -/
theorem step_fits (words : List String) (maxWidth : Int) (a b : Nat) (v : Int)
    (hstep : BreakStep (fillTables (cumLengths words) maxWidth words.length).lineBreaks
      words.length a b)
    (hv : (fillTables (cumLengths words) maxWidth words.length).minCost.getD b none = some v) :
    (renderedWidth (slice words a b) : Int) ≤ maxWidth := by
  obtain ⟨hab, hb, ha⟩ := hstep
  obtain ⟨_, _, hfit, _⟩ := (fillTables_inv words maxWidth).pointer b v (by omega) hb hv
  rw [← ha, totalLen_eq words a b hab hb] at hfit
  exact hfit

theorem mem_buildLines {words : List String} {bs : List Nat} {line : String}
    (h : line ∈ buildLines words bs) :
    ∃ p ∈ bs.zip bs.tail, line = strings.Join (slice words p.1 p.2) " " := by
  simp only [buildLines, List.mem_map] at h
  obtain ⟨p, hp, rfl⟩ := h
  exact ⟨p, hp, rfl⟩

theorem map_Join_of_singletons :
    ∀ (L : List (List String)), (∀ l ∈ L, l.length = 1) →
      L.map (fun l => strings.Join l " ") = L.flatten
  | [], _ => rfl
  | l :: L, h => by
    have hl := h l (by simp)
    match l, hl with
    | [w], _ =>
      simp only [List.map_cons, List.flatten_cons, Join_singleton, List.singleton_append]
      rw [map_Join_of_singletons L (fun l hl => h l (by simp [hl]))]

/-- When every line has one word, the lines are the words. -/
theorem buildLines_of_unit_steps (words : List String) (bs : List Nat)
    (h0 : bs.head? = some 0) (hn : bs.getLast? = some words.length)
    (hc : List.Chain' (fun a b => a < b ∧ b ≤ words.length) bs)
    (hunit : ∀ p ∈ bs.zip bs.tail, p.2 = p.1 + 1) :
    buildLines words bs = words := by
  have hflat := (flatten_slices words words.length bs 0 words.length h0 hn hc).1
  rw [slice_self] at hflat
  have hmap : buildLines words bs
      = ((bs.zip bs.tail).map fun p => slice words p.1 p.2).map fun l => strings.Join l " " := by
    simp [buildLines, List.map_map, Function.comp_def]
  rw [hmap, map_Join_of_singletons, hflat]
  intro l hl
  simp only [List.mem_map] at hl
  obtain ⟨p, hp, rfl⟩ := hl
  have hr := chain_zip_tail bs hc p hp
  rw [slice_length words p.1 p.2 hr.2, hunit p hp]
  omega

theorem BreakStep.weaken {lineBreaks : List Nat} {n : Nat} {bs : List Nat}
    (h : List.Chain' (BreakStep lineBreaks n) bs) :
    List.Chain' (fun a b => a < b ∧ b ≤ n) bs :=
  List.Chain'.imp (fun _ _ hab => ⟨hab.1, hab.2.1⟩) h

/-! ## Exact arithmetic in the range `n * maxWidth^3 < 2^53` -/

theorem roundFloat64_exact (x : Int) (h0 : 0 ≤ x) (h : x < 2 ^ 53) : roundFloat64 x = x := by
  have hx : x.natAbs < 2 ^ 53 := by omega
  unfold roundFloat64
  simp only [if_pos hx]

theorem wrapInt64_exact (x : Int) (h0 : 0 ≤ x) (h : x < 2 ^ 63) : wrapInt64 x = x := by
  unfold wrapInt64
  omega

/-- In the exact range the cost of a fitting line is its exact penalty, which
lies between `0` and `maxWidth^3`. -/
theorem lineCost_exact (words : List String) (maxWidth : Int) (hW : 0 < maxWidth)
    (hx : ExactRange words maxWidth) (i j : Nat) (hij : i < j) (hj : j ≤ words.length)
    (hfit : totalLen (cumLengths words) i j ≤ maxWidth) :
    lineCost maxWidth words.length j (totalLen (cumLengths words) i j)
        = penalty words maxWidth i j ∧
      0 ≤ penalty words maxWidth i j ∧ penalty words maxWidth i j ≤ maxWidth ^ 3 := by
  have hpos : 0 ≤ maxWidth ^ 3 := by positivity
  rw [totalLen_eq words i j hij hj] at hfit ⊢
  unfold lineCost penalty
  by_cases hjn : j = words.length
  · simp only [if_pos hjn]
    exact ⟨trivial, le_refl _, hpos⟩
  · simp only [if_neg hjn]
    have hs0 : 0 ≤ maxWidth - (renderedWidth (slice words i j) : Int) := by omega
    have hsW : maxWidth - (renderedWidth (slice words i j) : Int) ≤ maxWidth := by omega
    have hcube : (maxWidth - (renderedWidth (slice words i j) : Int)) ^ 3 ≤ maxWidth ^ 3 :=
      pow_le_pow_left₀ hs0 hsW 3
    have hc0 : 0 ≤ (maxWidth - (renderedWidth (slice words i j) : Int)) ^ 3 := by positivity
    have hn1 : (1 : Int) ≤ words.length := by omega
    have hbig : maxWidth ^ 3 < 2 ^ 53 := by
      have : maxWidth ^ 3 ≤ (words.length : Int) * maxWidth ^ 3 := by nlinarith
      exact lt_of_le_of_lt this hx
    have hmul : (maxWidth - (renderedWidth (slice words i j) : Int))
          * (maxWidth - (renderedWidth (slice words i j) : Int))
          * (maxWidth - (renderedWidth (slice words i j) : Int))
        = (maxWidth - (renderedWidth (slice words i j) : Int)) ^ 3 := by ring
    rw [hmul, wrapInt64_exact _ hc0 (by omega), roundFloat64_exact _ hc0 (by omega)]
    exact ⟨rfl, hc0, hcube⟩

/-- In the exact range a candidate built on a value `vi ≤ i * maxWidth^3` is
the exact sum. -/
theorem candidate_exact (words : List String) (maxWidth : Int) (hW : 0 < maxWidth)
    (hx : ExactRange words maxWidth) (i j : Nat) (hij : i < j) (hj : j ≤ words.length)
    (hfit : totalLen (cumLengths words) i j ≤ maxWidth) (vi : Int) (h0 : 0 ≤ vi)
    (hvi : vi ≤ (i : Int) * maxWidth ^ 3) :
    candidate words maxWidth vi i j = vi + penalty words maxWidth i j ∧
      0 ≤ vi + penalty words maxWidth i j ∧
      vi + penalty words maxWidth i j ≤ (j : Int) * maxWidth ^ 3 := by
  obtain ⟨hc, hp0, hpW⟩ := lineCost_exact words maxWidth hW hx i j hij hj hfit
  have hpos : 0 ≤ maxWidth ^ 3 := by positivity
  have hij' : (i : Int) + 1 ≤ j := by omega
  have hjn' : (j : Int) ≤ words.length := by omega
  have h1 : vi + penalty words maxWidth i j ≤ (j : Int) * maxWidth ^ 3 := by nlinarith
  have h2 : (j : Int) * maxWidth ^ 3 ≤ (words.length : Int) * maxWidth ^ 3 := by nlinarith
  have h3 : vi + penalty words maxWidth i j < 2 ^ 53 := by
    have := lt_of_le_of_lt (le_trans h1 h2) hx
    exact this
  rw [candidate, hc, roundFloat64_exact _ (by omega) h3]
  exact ⟨rfl, by omega, h1⟩

/-- In the exact range every finite entry of `minCost` is non-negative and at
most `j * maxWidth^3`. -/
theorem minCost_bounds (words : List String) (maxWidth : Int) (hW : 0 < maxWidth)
    (hx : ExactRange words maxWidth) :
    ∀ (j : Nat) (v : Int), j ≤ words.length →
      (fillTables (cumLengths words) maxWidth words.length).minCost.getD j none = some v →
      0 ≤ v ∧ v ≤ (j : Int) * maxWidth ^ 3 := by
  intro j
  induction j using Nat.strong_induction_on with
  | _ j ih =>
    intro v hj hv
    rcases Nat.eq_zero_or_pos j with h0 | h1
    · subst h0
      rw [(fillTables_inv words maxWidth).start] at hv
      cases hv
      simp
    · obtain ⟨hlt, _, hfit, vi, hvi, he⟩ := (fillTables_inv words maxWidth).pointer j v h1 hj hv
      obtain ⟨b0, b1⟩ := ih _ hlt vi (by omega) hvi
      obtain ⟨e1, e2, e3⟩ := candidate_exact words maxWidth hW hx _ j hlt hj hfit vi b0 b1
      rw [he, e1]
      exact ⟨e2, e3⟩

/-! ## Optimality in the exact range -/

theorem chain_head_le_last {R : Nat → Nat → Prop} (hR : ∀ a b, R a b → a < b) :
    ∀ (bs : List Nat) (a b : Nat), bs.head? = some a → bs.getLast? = some b →
      List.Chain' R bs → a ≤ b
  | [], _, _, h, _, _ => by cases h
  | [x], a, b, ha, hb, _ => by
    simp at ha hb
    omega
  | x :: y :: rest, a, b, ha, hb, hc => by
    simp only [List.head?_cons, Option.some.injEq] at ha
    rw [List.getLast?_cons_cons] at hb
    rw [List.chain'_cons] at hc
    have := chain_head_le_last hR (y :: rest) y b rfl hb hc.2
    have := hR x y hc.1
    omega

theorem chain_bound {R : Nat → Nat → Prop} (hR : ∀ a b, R a b → a < b) :
    ∀ (bs : List Nat) (n : Nat), bs.getLast? = some n → List.Chain' R bs →
      List.Chain' (fun a b => R a b ∧ b ≤ n) bs
  | [], _, _, _ => List.chain'_nil
  | [x], _, _, _ => List.chain'_singleton x
  | x :: y :: rest, n, hb, hc => by
    rw [List.getLast?_cons_cons] at hb
    rw [List.chain'_cons] at hc ⊢
    exact ⟨⟨hc.1, chain_head_le_last hR (y :: rest) y n rfl hb hc.2⟩,
      chain_bound hR (y :: rest) n hb hc.2⟩

/-- Every feasible chain of lines from a reachable index `a` to `n` bounds
`minCost[n]` from above by its exact cost. -/
theorem minCost_le_pathCost (words : List String) (maxWidth : Int) (hW : 0 < maxWidth)
    (hx : ExactRange words maxWidth) :
    ∀ (bs : List Nat) (a : Nat) (va : Int), bs.head? = some a →
      bs.getLast? = some words.length →
      List.Chain' (fun a b => (a < b ∧ (renderedWidth (slice words a b) : Int) ≤ maxWidth) ∧
        b ≤ words.length) bs →
      (fillTables (cumLengths words) maxWidth words.length).minCost.getD a none = some va →
      ∃ vb, (fillTables (cumLengths words) maxWidth words.length).minCost.getD
          words.length none = some vb ∧ vb ≤ va + pathCost words maxWidth bs
  | [], _, _, h, _, _, _ => by cases h
  | [x], a, va, ha, hb, _, hva => by
    simp at ha hb
    subst ha
    subst hb
    exact ⟨va, hva, by simp [pathCost]⟩
  | x :: y :: rest, a, va, ha, hb, hc, hva => by
    simp only [List.head?_cons, Option.some.injEq] at ha
    subst ha
    rw [List.getLast?_cons_cons] at hb
    rw [List.chain'_cons] at hc
    obtain ⟨⟨⟨hxy, hfit⟩, hyn⟩, hrest⟩ := hc
    rw [← totalLen_eq words x y hxy hyn] at hfit
    obtain ⟨vy, hvy, hle, _⟩ := (fillTables_inv words maxWidth).relaxed x y va hxy hyn
      (by omega) hfit hva
    obtain ⟨b0, b1⟩ := minCost_bounds words maxWidth hW hx x va (by omega) hva
    obtain ⟨e1, _, _⟩ := candidate_exact words maxWidth hW hx x y hxy hyn hfit va b0 b1
    obtain ⟨vb, hvb, hle2⟩ :=
      minCost_le_pathCost words maxWidth hW hx (y :: rest) y vy rfl hb hrest hvy
    refine ⟨vb, hvb, ?_⟩
    rw [pathCost]
    omega

/-- Along the back-pointers the entry of `minCost` is the exact cost of the
chain of lines that leads to it. -/
theorem minCost_eq_pathCost (words : List String) (maxWidth : Int) (hW : 0 < maxWidth)
    (hx : ExactRange words maxWidth) :
    ∀ (bs : List Nat) (a b : Nat) (vb : Int), bs.head? = some a → bs.getLast? = some b →
      List.Chain' (BreakStep (fillTables (cumLengths words) maxWidth words.length).lineBreaks
        words.length) bs →
      (fillTables (cumLengths words) maxWidth words.length).minCost.getD b none = some vb →
      ∃ va, (fillTables (cumLengths words) maxWidth words.length).minCost.getD a none = some va ∧
        vb = va + pathCost words maxWidth bs
  | [], _, _, _, h, _, _, _ => by cases h
  | [x], a, b, vb, ha, hb, _, hvb => by
    simp at ha hb
    subst ha
    subst hb
    exact ⟨vb, hvb, by simp [pathCost]⟩
  | x :: y :: rest, a, b, vb, ha, hb, hc, hvb => by
    simp only [List.head?_cons, Option.some.injEq] at ha
    subst ha
    rw [List.getLast?_cons_cons] at hb
    rw [List.chain'_cons] at hc
    obtain ⟨⟨hxy, hyn, hlb⟩, hrest⟩ := hc
    obtain ⟨vy, hvy, he⟩ :=
      minCost_eq_pathCost words maxWidth hW hx (y :: rest) y b vb rfl hb hrest hvb
    obtain ⟨_, _, hfit, vx, hvx, hcand⟩ :=
      (fillTables_inv words maxWidth).pointer y vy (by omega) hyn hvy
    rw [← hlb] at hfit hvx hcand
    obtain ⟨b0, b1⟩ := minCost_bounds words maxWidth hW hx x vx (by omega) hvx
    obtain ⟨e1, _, _⟩ := candidate_exact words maxWidth hW hx x y hxy hyn hfit vx b0 b1
    refine ⟨vx, hvx, ?_⟩
    rw [pathCost]
    omega

/-- The penalty of the rendered lines is the exact cost of the partition. -/
theorem totalPenalty_buildLines (words : List String) (maxWidth : Int) :
    ∀ (bs : List Nat), bs.getLast? = some words.length →
      List.Chain' (fun a b => a < b ∧ b ≤ words.length) bs →
      totalPenalty maxWidth (buildLines words bs) = pathCost words maxWidth bs
  | [], _, _ => rfl
  | [x], _, _ => rfl
  | [x, y], hb, hc => by
    simp at hb
    subst hb
    simp [totalPenalty, buildLines, pathCost, penalty]
  | x :: y :: z :: rest, hb, hc => by
    rw [List.getLast?_cons_cons] at hb
    rw [List.chain'_cons] at hc
    have ih := totalPenalty_buildLines words maxWidth (y :: z :: rest) hb hc.2
    have hyz : y < z := by
      have := hc.2
      rw [List.chain'_cons] at this
      exact this.1.1
    have hzn : z ≤ words.length := by
      rw [List.getLast?_cons_cons] at hb
      have h2 := hc.2
      rw [List.chain'_cons] at h2
      exact chain_head_le_last (fun _ _ h => h.1) (z :: rest) z words.length rfl hb h2.2
    have hy : y ≠ words.length := by omega
    rw [pathCost, ← ih]
    simp only [totalPenalty, buildLines, List.tail_cons, List.zip_cons_cons, List.map_cons,
      List.dropLast_cons₂, List.sum_cons, penalty, if_neg hy, len_Join]

/-! ## The claims -/

/-- C2 (partition): on a non-empty word list and a positive width the result
is cut at break indices `0 = b0 < b1 < ... < bk = n`, `k ≥ 1`; the `t`-th line
is `strings.Join(words[b_t:b_t+1], " ")`, every run is non-empty, and the runs
concatenated in order are the input word list. -/
theorem KnuthPlass_partition (words : List String) (maxWidth : Int) (hne : words ≠ [])
    (hW : 0 < maxWidth) :
    ∃ bs : List Nat,
      bs.head? = some 0 ∧ bs.getLast? = some words.length ∧
      List.Chain' (fun a b => a < b) bs ∧ 2 ≤ bs.length ∧
      KnuthPlass words maxWidth
        = some ((bs.zip bs.tail).map fun p => strings.Join (slice words p.1 p.2) " ") ∧
      (∀ p ∈ bs.zip bs.tail, slice words p.1 p.2 ≠ []) ∧
      ((bs.zip bs.tail).map fun p => slice words p.1 p.2).flatten = words := by
  obtain ⟨bs, hK, h0, hn, hc⟩ := KnuthPlass_eq words maxWidth hne hW
  have hc' := BreakStep.weaken hc
  have hlen : words.length ≠ 0 := fun h => hne (List.length_eq_zero.mp h)
  refine ⟨bs, h0, hn, List.Chain'.imp (fun _ _ h => h.1) hc,
    length_ge_two_of_ends bs 0 words.length (Ne.symm hlen) h0 hn, hK, ?_, ?_⟩
  · intro p hp hnil
    have hr := chain_zip_tail bs hc' p hp
    have := slice_length words p.1 p.2 hr.2
    rw [hnil] at this
    simp at this
    omega
  · have := (flatten_slices words words.length bs 0 words.length h0 hn hc').1
    rwa [slice_self] at this

/-- C3 (width safety): when `maxWidth > 0` and no word is longer than
`maxWidth`, every returned line has length at most `maxWidth`. -/
theorem KnuthPlass_width_safe (words : List String) (maxWidth : Int) (hW : 0 < maxWidth)
    (hfit : ∀ w ∈ words, (len w : Int) ≤ maxWidth) :
    ∃ lines, KnuthPlass words maxWidth = some lines ∧
      ∀ line ∈ lines, (len line : Int) ≤ maxWidth := by
  by_cases hne : words = []
  · subst hne
    exact ⟨[], by simp [KnuthPlass], by simp⟩
  · obtain ⟨bs, hK, h0, hn, hc⟩ := KnuthPlass_eq words maxWidth hne hW
    refine ⟨_, hK, ?_⟩
    intro line hline
    obtain ⟨p, hp, rfl⟩ := mem_buildLines hline
    have hstep := chain_zip_tail bs hc p hp
    obtain ⟨v, hv⟩ := minCost_finite_of_fit words maxWidth hfit p.2 hstep.2.1
    rw [len_Join]
    exact step_fits words maxWidth p.1 p.2 v hstep hv

/-- C5 (degenerate inputs): `KnuthPlass` always returns, and it returns the
empty list exactly when `maxWidth ≤ 0` or there is no word. -/
theorem KnuthPlass_empty_iff (words : List String) (maxWidth : Int) :
    (∃ lines, KnuthPlass words maxWidth = some lines) ∧
    (KnuthPlass words maxWidth = some [] ↔ (maxWidth ≤ 0 ∨ words = [])) := by
  by_cases hW : maxWidth ≤ 0
  · simp [KnuthPlass, hW]
  · by_cases hne : words = []
    · subst hne; simp [KnuthPlass]
    · obtain ⟨bs, hK, h0, hn, hc⟩ := KnuthPlass_eq words maxWidth hne (not_le.mp hW)
      have hlen : words.length ≠ 0 := fun h => hne (List.length_eq_zero.mp h)
      have h2 := length_ge_two_of_ends bs 0 words.length (Ne.symm hlen) h0 hn
      refine ⟨⟨_, hK⟩, ?_⟩
      rw [hK]
      constructor
      · intro h
        have hl : (buildLines words bs).length = 0 := by
          rw [Option.some.injEq] at h; rw [h]; rfl
        simp [buildLines] at hl
        omega
      · rintro (h | h)
        · exact absurd h hW
        · exact absurd h hne

/-- C6 (single word): a one-word input is returned as the one line `w`,
whatever the length of `w`. -/
theorem KnuthPlass_single (w : String) (maxWidth : Int) (hW : 0 < maxWidth) :
    KnuthPlass [w] maxWidth = some [w] := by
  obtain ⟨bs, hK, h0, hn, hc⟩ := KnuthPlass_eq [w] maxWidth (by simp) hW
  rw [hK, buildLines_of_unit_steps [w] bs h0 hn (BreakStep.weaken hc)]
  intro p hp
  have := chain_zip_tail bs (BreakStep.weaken hc) p hp
  simp only [List.length_singleton] at this
  omega

theorem totalLen_anti (words : List String) (i i' j : Nat) (hi : i ≤ i') (hj : i' < j)
    (hn : j ≤ words.length) :
    totalLen (cumLengths words) i' j ≤ totalLen (cumLengths words) i j := by
  have h := cumLengths_mono words i i' hi (by omega)
  simp only [totalLen]
  omega

theorem sum_take_two (words : List String) (k : Nat) (h : k + 1 < words.length) :
    ((words.take (k + 2)).map len).sum
      = ((words.take k).map len).sum + len words[k] + len words[k + 1] := by
  rw [List.take_succ, List.take_succ,
    List.getElem?_eq_getElem (show k < words.length by omega),
    List.getElem?_eq_getElem h]
  simp only [Option.toList, List.map_append, List.sum_append, List.map_cons, List.map_nil,
    List.sum_cons, List.sum_nil]
  omega

/-- A line of two or more words is at least as wide as its last two words
with their separator. -/
theorem totalLen_last_two (words : List String) (i k : Nat) (hi : i ≤ k)
    (h : k + 1 < words.length) :
    (len words[k] : Int) + 1 + (len words[k + 1] : Int)
      ≤ totalLen (cumLengths words) i (k + 2) := by
  have hanti := totalLen_anti words i k (k + 2) hi (by omega) (by omega)
  have hc1 := cumLengths_getD words k (by omega)
  have hc3 := cumLengths_getD words (k + 2) (by omega)
  rw [sum_take_two words k h] at hc3
  simp only [totalLen] at hanti ⊢
  omega

/-- C10 (forced breaks): when every word fits and no two adjacent words fit
together, the result is the word list itself, one word per line. -/
theorem KnuthPlass_one_word_per_line (words : List String) (maxWidth : Int)
    (hne : words ≠ []) (hW : 0 < maxWidth)
    (hfit : ∀ w ∈ words, (len w : Int) ≤ maxWidth)
    (hadj : ∀ k (h : k + 1 < words.length),
      maxWidth < (len words[k] : Int) + 1 + (len words[k + 1] : Int)) :
    KnuthPlass words maxWidth = some words := by
  obtain ⟨bs, hK, h0, hn, hc⟩ := KnuthPlass_eq words maxWidth hne hW
  rw [hK, buildLines_of_unit_steps words bs h0 hn (BreakStep.weaken hc)]
  rintro ⟨a, b⟩ hp
  have hstep := chain_zip_tail bs hc (a, b) hp
  obtain ⟨v, hv⟩ := minCost_finite_of_fit words maxWidth hfit b hstep.2.1
  have hw := step_fits words maxWidth a b v hstep hv
  obtain ⟨hlt, hle, _⟩ := hstep
  simp only at hlt hle hw ⊢
  by_contra hne1
  obtain ⟨k, rfl⟩ : ∃ k, b = k + 2 := ⟨b - 2, by omega⟩
  have h2 := totalLen_last_two words a k (by omega) (by omega)
  rw [totalLen_eq words a (k + 2) hlt hle] at h2
  have hk := hadj k (by omega)
  omega

theorem Join_data (w : String) (ws : List String) :
    (strings.Join (w :: ws) " ").data = [' '].intercalate ((w :: ws).map String.data) := by
  simp only [strings.Join, String.intercalate, intercalate_go_eq]
  induction ws generalizing w with
  | nil => simp [List.intercalate]
  | cons w' ws ih =>
    have := ih w'
    simp only [List.intercalate, List.map_cons, List.intersperse, List.flatten_cons] at this ⊢
    rw [← this]
    simp

/-- Splitting a joined line at the spaces gives back its words, when no
word holds a space. -/
theorem Split_Join (ws : List String) (hne : ws ≠ [])
    (hsp : ∀ w ∈ ws, ' ' ∉ w.data) :
    strings.Split (strings.Join ws " ") = ws := by
  match ws, hne with
  | w :: ws, _ =>
    rw [strings.Split, String.split_of_valid, Join_data]
    have h := List.splitOn_intercalate ((w :: ws).map String.data) ' '
      (by
        intro l hl
        simp only [List.mem_map] at hl
        obtain ⟨x, hx, rfl⟩ := hl
        exact hsp x hx)
      (by simp)
    rw [List.splitOn] at h
    rw [h, List.map_map]
    simp [Function.comp_def]

/-- C7, as stated, fails: a word that holds a space is split in two. -/
theorem resplit_fails_on_inner_space :
    KnuthPlass ["a b"] 10 = some ["a b"] ∧
    (List.map strings.Split ["a b"]).flatten = ["a", "b"] ∧
    (List.map strings.Split ["a b"]).flatten ≠ ["a b"] := by
  have h : strings.Split "a b" = ["a", "b"] := by
    rw [strings.Split, String.split_of_valid]
    decide
  refine ⟨by decide, ?_, ?_⟩
  · simp [h]
  · simp [h]

/-- C7 (re-split round trip, amended): when no word holds a space, splitting
the returned lines at the spaces and concatenating the pieces gives back the
word list. -/
theorem KnuthPlass_resplit (words : List String) (maxWidth : Int) (hne : words ≠ [])
    (hW : 0 < maxWidth) (hsp : ∀ w ∈ words, ' ' ∉ w.data) :
    ∃ lines, KnuthPlass words maxWidth = some lines ∧
      (lines.map strings.Split).flatten = words := by
  obtain ⟨bs, hK, h0, hn, hc⟩ := KnuthPlass_eq words maxWidth hne hW
  have hc' := BreakStep.weaken hc
  refine ⟨_, hK, ?_⟩
  have hflat := (flatten_slices words words.length bs 0 words.length h0 hn hc').1
  rw [slice_self] at hflat
  have hmap : (buildLines words bs).map strings.Split
      = (bs.zip bs.tail).map fun p => slice words p.1 p.2 := by
    rw [buildLines, List.map_map]
    apply List.map_congr_left
    intro p hp
    have hr := chain_zip_tail bs hc' p hp
    have hl := slice_length words p.1 p.2 hr.2
    apply Split_Join
    · intro hnil
      rw [hnil] at hl
      simp at hl
      omega
    · intro w hw
      exact hsp w (mem_of_mem_slice hw)
  rw [hmap, hflat]

/-- C1, as stated, fails at the width `2^63 - 1`: the cube of the slack wraps around to `-8`,
the two words are put on two lines, and the feasible one-line partition has a
smaller exact penalty. -/
theorem optimality_fails_at_max_int :
    KnuthPlass ["a", "b"] 9223372036854775807 = some ["a", "b"] ∧
    Feasible ["a", "b"] 9223372036854775807 [0, 2] ∧
    totalPenalty 9223372036854775807 (buildLines ["a", "b"] [0, 2])
      < totalPenalty 9223372036854775807 ["a", "b"] := by
  refine ⟨by decide!, ?_, by decide!⟩
  refine ⟨rfl, rfl, ?_⟩
  exact List.chain'_pair.mpr ⟨by decide, by decide!⟩

/-- C4 (overlong-word exception) does not hold of the code: on an input with
an overlong word between two words that fit, all three words come back on
one line of 15 bytes, wider than `maxWidth = 3` and of more than one word,
where the claim allows only the overlong word alone to exceed the width. -/
theorem overlong_word_collapses :
    KnuthPlass ["a", "toolongword", "b"] 3 = some ["a toolongword b"] ∧
    strings.Join ["a", "toolongword", "b"] " " = "a toolongword b" ∧
    (len "a toolongword b" : Int) = 15 ∧
    (3 : Int) < (renderedWidth ["a", "toolongword", "b"] : Int) ∧
    ["a", "toolongword", "b"].length ≠ 1 ∧
    (len "a" : Int) ≤ 3 ∧ (len "b" : Int) ≤ 3 ∧
    finalMinCost ["a", "toolongword", "b"] 3 3 = none ∧
    finalLineBreak ["a", "toolongword", "b"] 3 3 = 0 := by
  refine ⟨by decide!, by decide!, by decide!, by decide!, by decide, by decide!, by decide!,
    by decide!, by decide!⟩

/-- C8, as stated, fails at the width `2^63 - 1`: the greedy partition is the single line
`a b` of penalty zero, and the returned lines have a positive penalty. -/
theorem greedy_beats_at_max_int :
    (∀ w ∈ ["a", "b"], (len w : Int) ≤ 9223372036854775807) ∧
    KnuthPlass ["a", "b"] 9223372036854775807 = some ["a", "b"] ∧
    greedy 9223372036854775807 ["a", "b"] = [["a", "b"]] ∧
    totalPenalty 9223372036854775807 ((greedy 9223372036854775807 ["a", "b"]).map
        fun l => strings.Join l " ") = 0 ∧
    0 < totalPenalty 9223372036854775807 ["a", "b"] := by
  refine ⟨by decide!, by decide!, by decide!, by decide!, by decide!⟩

/-- C9, as stated, fails at the width `2^63 - 1`: the whole list fits on one line, and two
lines are returned. -/
theorem one_line_fails_at_max_int :
    (renderedWidth ["a", "b"] : Int) ≤ 9223372036854775807 ∧
    KnuthPlass ["a", "b"] 9223372036854775807 = some ["a", "b"] ∧
    KnuthPlass ["a", "b"] 9223372036854775807 ≠ some [strings.Join ["a", "b"] " "] := by
  refine ⟨by decide!, by decide!, by decide!⟩

theorem Feasible.bounded {words : List String} {maxWidth : Int} {bs : List Nat}
    (h : Feasible words maxWidth bs) :
    List.Chain' (fun a b => (a < b ∧ (renderedWidth (slice words a b) : Int) ≤ maxWidth) ∧
      b ≤ words.length) bs :=
  chain_bound (fun _ _ hab => hab.1) bs words.length h.2.1 h.2.2

/-- In the exact range the lines cut along the back-pointers cost no more
than the lines of a feasible partition. -/
theorem pointer_chain_optimal (words : List String) (maxWidth : Int) (hW : 0 < maxWidth)
    (hx : ExactRange words maxWidth) (bs0 bs : List Nat) (h0 : bs0.head? = some 0)
    (hn : bs0.getLast? = some words.length)
    (hc : List.Chain' (BreakStep (fillTables (cumLengths words) maxWidth words.length).lineBreaks
      words.length) bs0)
    (hbs : Feasible words maxWidth bs) :
    totalPenalty maxWidth (buildLines words bs0)
      ≤ totalPenalty maxWidth (buildLines words bs) := by
  have hstart := (fillTables_inv words maxWidth).start
  obtain ⟨vb, hvb, hle⟩ := minCost_le_pathCost words maxWidth hW hx bs 0 0 hbs.1 hbs.2.1
    hbs.bounded hstart
  obtain ⟨va, hva, he⟩ := minCost_eq_pathCost words maxWidth hW hx bs0 0 words.length vb h0 hn
    hc hvb
  rw [hstart] at hva
  cases hva
  rw [totalPenalty_buildLines words maxWidth bs0 hn (BreakStep.weaken hc),
    totalPenalty_buildLines words maxWidth bs hbs.2.1
      (List.Chain'.imp (fun _ _ h => ⟨h.1.1, h.2⟩) hbs.bounded)]
  omega

/-- C1 (optimality, amended): when `n * maxWidth^3 < 2^53`, so that the cost
arithmetic is exact, the penalty of the returned lines is at most the
penalty of every feasible partition of the same words. -/
theorem KnuthPlass_optimal (words : List String) (maxWidth : Int)
    (hne : words ≠ []) (hW : 0 < maxWidth) (hx : ExactRange words maxWidth) :
    ∃ lines, KnuthPlass words maxWidth = some lines ∧
      ∀ bs, Feasible words maxWidth bs →
        totalPenalty maxWidth lines ≤ totalPenalty maxWidth (buildLines words bs) := by
  obtain ⟨bs0, hK, h0, hn, hc⟩ := KnuthPlass_eq words maxWidth hne hW
  refine ⟨_, hK, ?_⟩
  intro bs hbs
  exact pointer_chain_optimal words maxWidth hW hx bs0 bs h0 hn hc hbs

/-- Optimality on the five one-letter words at width 3. -/
theorem KnuthPlass_optimal_witness :
    ["a", "b", "c", "d", "e"] ≠ [] ∧ (0 : Int) < 3 ∧ ExactRange ["a", "b", "c", "d", "e"] 3 ∧
    ∃ lines, KnuthPlass ["a", "b", "c", "d", "e"] 3 = some lines ∧
      ∀ bs, Feasible ["a", "b", "c", "d", "e"] 3 bs →
        totalPenalty 3 lines ≤ totalPenalty 3 (buildLines ["a", "b", "c", "d", "e"] bs) :=
  ⟨by decide, by decide, by decide,
    KnuthPlass_optimal ["a", "b", "c", "d", "e"] 3 (by decide) (by decide) (by decide)⟩

/-- In a chain of back-pointers of two or more indices the first index is at
most the back-pointer of the last one. -/
theorem chain_head_le_pointer (lineBreaks : List Nat) (n : Nat) :
    ∀ (bs : List Nat) (a b : Nat), 2 ≤ bs.length → bs.head? = some a →
      bs.getLast? = some b → List.Chain' (BreakStep lineBreaks n) bs →
      a ≤ lineBreaks.getD b 0
  | [], _, _, h, _, _, _ => by simp at h
  | [_], _, _, h, _, _, _ => by simp at h
  | [x, y], a, b, _, ha, hb, hc => by
    simp at ha hb
    subst ha
    subst hb
    rw [List.chain'_pair] at hc
    exact le_of_eq hc.2.2
  | x :: y :: z :: rest, a, b, _, ha, hb, hc => by
    simp only [List.head?_cons, Option.some.injEq] at ha
    subst ha
    rw [List.getLast?_cons_cons] at hb
    rw [List.chain'_cons] at hc
    have := chain_head_le_pointer lineBreaks n (y :: z :: rest) y b (by simp) rfl hb hc.2
    have := hc.1.1
    omega

/-- When the back-pointer of `n` is `0` the break indices are `0, n`. -/
theorem chain_eq_pair (lineBreaks : List Nat) (n : Nat) (hn : n ≠ 0)
    (hlb : lineBreaks.getD n 0 = 0) :
    ∀ (bs : List Nat), bs.head? = some 0 → bs.getLast? = some n →
      List.Chain' (BreakStep lineBreaks n) bs → bs = [0, n]
  | [], h, _, _ => by cases h
  | [x], ha, hb, _ => by
    simp at ha hb
    omega
  | [x, y], ha, hb, _ => by
    simp at ha hb
    rw [ha, hb]
  | x :: y :: z :: rest, ha, hb, hc => by
    exfalso
    simp only [List.head?_cons, Option.some.injEq] at ha
    rw [List.getLast?_cons_cons] at hb
    rw [List.chain'_cons] at hc
    have := chain_head_le_pointer lineBreaks n (y :: z :: rest) y n (by simp) rfl hb hc.2
    have := hc.1.1
    omega

theorem roundFloat64_nonneg (x : Int) (h0 : 0 ≤ x) : 0 ≤ roundFloat64 x := by
  unfold roundFloat64
  simp only
  split
  · exact h0
  · exact mul_nonneg (Int.sign_nonneg.mpr h0) (Int.ofNat_nonneg _)

/-- Up to `maxWidth = 2^21 - 1` the cube of the slack of a fitting line does
not wrap, so the cost of the line is not negative. -/
theorem lineCost_nonneg (words : List String) (maxWidth : Int)
    (hmax : maxWidth ≤ 2097151) (i j : Nat) (hij : i < j) (hj : j ≤ words.length)
    (hfit : totalLen (cumLengths words) i j ≤ maxWidth) :
    0 ≤ lineCost maxWidth words.length j (totalLen (cumLengths words) i j) := by
  rw [totalLen_eq words i j hij hj] at hfit ⊢
  unfold lineCost
  simp only
  split
  · exact le_refl _
  · have hs0 : 0 ≤ maxWidth - (renderedWidth (slice words i j) : Int) := by omega
    have hsW : maxWidth - (renderedWidth (slice words i j) : Int) ≤ 2097151 := by omega
    have hcube : (maxWidth - (renderedWidth (slice words i j) : Int)) ^ 3 ≤ 2097151 ^ 3 :=
      pow_le_pow_left₀ hs0 hsW 3
    have hc0 : 0 ≤ (maxWidth - (renderedWidth (slice words i j) : Int)) ^ 3 := by positivity
    have hmul : (maxWidth - (renderedWidth (slice words i j) : Int))
          * (maxWidth - (renderedWidth (slice words i j) : Int))
          * (maxWidth - (renderedWidth (slice words i j) : Int))
        = (maxWidth - (renderedWidth (slice words i j) : Int)) ^ 3 := by ring
    rw [hmul, wrapInt64_exact _ hc0 (lt_of_le_of_lt hcube (by norm_num))]
    exact roundFloat64_nonneg _ hc0

/-- Up to `maxWidth = 2^21 - 1` no finite entry of `minCost` is negative. -/
theorem minCost_nonneg (words : List String) (maxWidth : Int) (hmax : maxWidth ≤ 2097151) :
    ∀ (j : Nat) (v : Int), j ≤ words.length →
      (fillTables (cumLengths words) maxWidth words.length).minCost.getD j none = some v →
      0 ≤ v := by
  intro j
  induction j using Nat.strong_induction_on with
  | _ j ih =>
    intro v hj hv
    rcases Nat.eq_zero_or_pos j with h0 | h1
    · subst h0
      rw [(fillTables_inv words maxWidth).start] at hv
      cases hv
      exact le_refl _
    · obtain ⟨hlt, _, hfit, vi, hvi, he⟩ := (fillTables_inv words maxWidth).pointer j v h1 hj hv
      have b0 := ih _ hlt vi (by omega) hvi
      have c0 := lineCost_nonneg words maxWidth hmax _ j hlt hj hfit
      rw [he, candidate]
      exact roundFloat64_nonneg _ (by omega)

/-- C9 (everything fits on one line, amended): when the whole list fits in
`maxWidth` and `maxWidth ≤ 2^21 - 1`, the result is the single line
`strings.Join(words, " ")`. -/
theorem KnuthPlass_one_line (words : List String) (maxWidth : Int)
    (hne : words ≠ []) (hW : 0 < maxWidth) (hmax : maxWidth ≤ 2097151)
    (hfit : (renderedWidth words : Int) ≤ maxWidth) :
    KnuthPlass words maxWidth = some [strings.Join words " "] := by
  obtain ⟨bs, hK, h0, hn, hc⟩ := KnuthPlass_eq words maxWidth hne hW
  have hlen : words.length ≠ 0 := fun h => hne (List.length_eq_zero.mp h)
  have hpos : 0 < words.length := Nat.pos_of_ne_zero hlen
  have hfit' : totalLen (cumLengths words) 0 words.length ≤ maxWidth := by
    rw [totalLen_eq words 0 words.length hpos (le_refl _), slice_self]
    exact hfit
  have hstart := (fillTables_inv words maxWidth).start
  obtain ⟨vn, hvn, hle, htie⟩ := (fillTables_inv words maxWidth).relaxed 0 words.length 0 hpos
    (le_refl _) hpos hfit' hstart
  have hcand : candidate words maxWidth 0 0 words.length = 0 := by
    simp only [candidate, lineCost, if_pos, Int.add_zero]
    rfl
  have b0 := minCost_nonneg words maxWidth hmax words.length vn (le_refl _) hvn
  have hlb : (fillTables (cumLengths words) maxWidth words.length).lineBreaks.getD
      words.length 0 = 0 := by
    have := htie (by omega)
    omega
  rw [hK, chain_eq_pair _ words.length hlen hlb bs h0 hn hc]
  simp [buildLines, slice_self]

/-- The exact fit of the test table: two words of width 11 at width 11. -/
theorem KnuthPlass_one_line_witness :
    ["Hello", "world"] ≠ [] ∧ (0 : Int) < 11 ∧ (11 : Int) ≤ 2097151 ∧
    (renderedWidth ["Hello", "world"] : Int) ≤ 11 ∧
    KnuthPlass ["Hello", "world"] 11 = some ["Hello world"] :=
  ⟨by decide, by decide, by decide, by decide,
    KnuthPlass_one_line ["Hello", "world"] 11 (by decide) (by decide) (by decide) (by decide)⟩

/-- The greedy lines are the runs of a feasible partition. -/
theorem greedyFrom_breaks (words : List String) (maxWidth : Int)
    (hfit : ∀ w ∈ words, (len w : Int) ≤ maxWidth) :
    ∀ (rest cur : List String) (a c : Nat), a < c → c ≤ words.length →
      cur = slice words a c → rest = words.drop c →
      (renderedWidth cur : Int) ≤ maxWidth →
      ∃ bs : List Nat, bs.head? = some a ∧ bs.getLast? = some words.length ∧
        List.Chain' (fun a b => a < b ∧ (renderedWidth (slice words a b) : Int) ≤ maxWidth) bs ∧
        ((bs.zip bs.tail).map fun p => slice words p.1 p.2) = greedyFrom maxWidth cur rest
  | [], cur, a, c, hac, hc, hcur, hrest, hw => by
    have hcn : c = words.length := by
      have := List.drop_eq_nil_iff.mp hrest.symm
      omega
    subst hcn
    refine ⟨[a, words.length], rfl, rfl, ?_, ?_⟩
    · rw [List.chain'_pair, ← hcur]
      exact ⟨hac, hw⟩
    · simp [greedyFrom, hcur]
  | w :: rest, cur, a, c, hac, hc, hcur, hrest, hw => by
    have hcn : c < words.length := by
      by_contra hge
      have : words.drop c = [] := List.drop_eq_nil_iff.mpr (by omega)
      rw [this] at hrest
      cases hrest
    have hrest' : rest = words.drop (c + 1) := by
      have : words.drop (c + 1) = (words.drop c).tail := by
        rw [List.tail_drop]
      rw [this, ← hrest]
      rfl
    have hone : slice words c (c + 1) = [w] := by
      have : c + 1 - c = 1 := by omega
      rw [slice, ← hrest, this]
      rfl
    have hwmem : w ∈ words := mem_of_mem_slice (by rw [hone]; simp)
    have happ : cur ++ [w] = slice words a (c + 1) := by
      rw [hcur, ← hone]
      exact slice_append words a c (c + 1) (by omega) (by omega)
    by_cases hf : (renderedWidth (cur ++ [w]) : Int) ≤ maxWidth
    · obtain ⟨bs, h1, h2, h3, h4⟩ := greedyFrom_breaks words maxWidth hfit rest (cur ++ [w]) a
        (c + 1) (by omega) (by omega) happ hrest' hf
      refine ⟨bs, h1, h2, h3, ?_⟩
      rw [h4, greedyFrom, if_pos hf]
    · obtain ⟨bs, h1, h2, h3, h4⟩ := greedyFrom_breaks words maxWidth hfit rest [w] c
        (c + 1) (by omega) (by omega) hone.symm hrest'
        (by rw [renderedWidth_singleton]; exact hfit w hwmem)
      match bs, h1 with
      | x :: t, h1 =>
        simp only [List.head?_cons, Option.some.injEq] at h1
        subst h1
        refine ⟨a :: x :: t, rfl, ?_, ?_, ?_⟩
        · rw [List.getLast?_cons_cons]; exact h2
        · rw [List.chain'_cons]
          refine ⟨⟨hac, ?_⟩, h3⟩
          rw [← hcur]; exact hw
        · rw [greedyFrom, if_neg hf, ← h4]
          simp [hcur]

/-- C8 (no worse than greedy, amended): when every word fits and
`n * maxWidth^3 < 2^53`, the penalty of the returned lines is at most the
penalty of the greedy lines. -/
theorem KnuthPlass_le_greedy (words : List String) (maxWidth : Int)
    (hne : words ≠ []) (hW : 0 < maxWidth) (hx : ExactRange words maxWidth)
    (hfit : ∀ w ∈ words, (len w : Int) ≤ maxWidth) :
    ∃ lines, KnuthPlass words maxWidth = some lines ∧
      totalPenalty maxWidth lines
        ≤ totalPenalty maxWidth ((greedy maxWidth words).map fun l => strings.Join l " ") := by
  obtain ⟨bs0, hK, h0, hn, hc⟩ := KnuthPlass_eq words maxWidth hne hW
  refine ⟨_, hK, ?_⟩
  match words, hne with
  | w :: rest, _ =>
    obtain ⟨bs, h1, h2, h3, h4⟩ := greedyFrom_breaks (w :: rest) maxWidth hfit rest [w] 0 1
      (by omega) (by simp) (by simp [slice]) (by simp)
      (by rw [renderedWidth_singleton]; exact hfit w (by simp))
    have := pointer_chain_optimal (w :: rest) maxWidth hW hx bs0 bs h0 hn hc ⟨h1, h2, h3⟩
    rw [greedy, ← h4, List.map_map]
    exact this

/-- The comparison with greedy on the five one-letter words at width 3. -/
theorem KnuthPlass_le_greedy_witness :
    ["a", "b", "c", "d", "e"] ≠ [] ∧ (0 : Int) < 3 ∧ ExactRange ["a", "b", "c", "d", "e"] 3 ∧
    (∀ w ∈ ["a", "b", "c", "d", "e"], (len w : Int) ≤ 3) ∧
    ∃ lines, KnuthPlass ["a", "b", "c", "d", "e"] 3 = some lines ∧
      totalPenalty 3 lines
        ≤ totalPenalty 3 ((greedy 3 ["a", "b", "c", "d", "e"]).map
            fun l => strings.Join l " ") :=
  ⟨by decide, by decide, by decide, by decide,
    KnuthPlass_le_greedy ["a", "b", "c", "d", "e"] 3 (by decide) (by decide)
      (by decide) (by decide)⟩

/-- Reachability runs backwards along the back-pointers: the first index of
a chain that ends at a reachable index is reachable. -/
theorem chain_head_finite (words : List String) (maxWidth : Int) :
    ∀ (bs : List Nat) (a b : Nat) (vb : Int), bs.head? = some a → bs.getLast? = some b →
      List.Chain' (BreakStep (fillTables (cumLengths words) maxWidth words.length).lineBreaks
        words.length) bs →
      (fillTables (cumLengths words) maxWidth words.length).minCost.getD b none = some vb →
      ∃ va, (fillTables (cumLengths words) maxWidth words.length).minCost.getD a none = some va
  | [], _, _, _, h, _, _, _ => by cases h
  | [x], a, b, vb, ha, hb, _, hvb => by
    simp at ha hb
    subst ha
    subst hb
    exact ⟨vb, hvb⟩
  | x :: y :: rest, a, b, vb, ha, hb, hc, hvb => by
    simp only [List.head?_cons, Option.some.injEq] at ha
    subst ha
    rw [List.getLast?_cons_cons] at hb
    rw [List.chain'_cons] at hc
    obtain ⟨⟨hxy, hyn, hlb⟩, hrest⟩ := hc
    obtain ⟨vy, hvy⟩ := chain_head_finite words maxWidth (y :: rest) y b vb rfl hb hrest hvb
    obtain ⟨_, _, _, vx, hvx, _⟩ :=
      (fillTables_inv words maxWidth).pointer y vy (by omega) hyn hvy
    rw [← hlb] at hvx
    exact ⟨vx, hvx⟩

/-- When the end of the chain is reachable, every line of the chain fits. -/
theorem chain_fits (words : List String) (maxWidth : Int) :
    ∀ (bs : List Nat) (b : Nat) (vb : Int), bs.getLast? = some b →
      List.Chain' (BreakStep (fillTables (cumLengths words) maxWidth words.length).lineBreaks
        words.length) bs →
      (fillTables (cumLengths words) maxWidth words.length).minCost.getD b none = some vb →
      ∀ p ∈ bs.zip bs.tail, (renderedWidth (slice words p.1 p.2) : Int) ≤ maxWidth
  | [], _, _, _, _, _, p, hp => by simp at hp
  | [_], _, _, _, _, _, p, hp => by simp at hp
  | x :: y :: rest, b, vb, hb, hc, hvb, p, hp => by
    rw [List.getLast?_cons_cons] at hb
    rw [List.chain'_cons] at hc
    simp only [List.tail_cons, List.zip_cons_cons, List.mem_cons] at hp
    rcases hp with rfl | hp
    · obtain ⟨vy, hvy⟩ := chain_head_finite words maxWidth (y :: rest) y b vb rfl hb hc.2 hvb
      exact step_fits words maxWidth x y vy hc.1 hvy
    · exact chain_fits words maxWidth (y :: rest) b vb hb hc.2 hvb p (by simpa using hp)

/-- What the code returns for `maxWidth > 0`: either every line has rendered
width at most `maxWidth`, or some word is longer than `maxWidth` and the walk
follows the unset back-pointer of `n`, so that the result is the single line
of all the words. -/
theorem KnuthPlass_fits_or_collapses (words : List String) (maxWidth : Int)
    (hW : 0 < maxWidth) :
    ∃ lines, KnuthPlass words maxWidth = some lines ∧
      ((∀ line ∈ lines, (len line : Int) ≤ maxWidth) ∨
        (lines = [strings.Join words " "] ∧ ∃ w ∈ words, maxWidth < (len w : Int))) := by
  by_cases hne : words = []
  · subst hne
    exact ⟨[], by simp [KnuthPlass], Or.inl (by simp)⟩
  obtain ⟨bs, hK, h0, hn, hc⟩ := KnuthPlass_eq words maxWidth hne hW
  have hlen : words.length ≠ 0 := fun h => hne (List.length_eq_zero.mp h)
  refine ⟨_, hK, ?_⟩
  cases hv : (fillTables (cumLengths words) maxWidth words.length).minCost.getD
      words.length none with
  | some vn =>
    left
    intro line hline
    obtain ⟨p, hp, rfl⟩ := mem_buildLines hline
    rw [len_Join]
    exact chain_fits words maxWidth bs words.length vn hn hc hv p hp
  | none =>
    right
    have hlb := (fillTables_inv words maxWidth).unreached words.length (le_refl _) hv
    constructor
    · rw [chain_eq_pair _ words.length hlen hlb bs h0 hn hc]
      simp [buildLines, slice_self]
    · by_contra hall
      have hfit : ∀ w ∈ words, (len w : Int) ≤ maxWidth := by
        intro w hw
        by_contra hgt
        exact hall ⟨w, hw, not_le.mp hgt⟩
      obtain ⟨v, hv'⟩ := minCost_finite_of_fit words maxWidth hfit words.length (le_refl _)
      rw [hv] at hv'
      cases hv'

/-- The dichotomy on the input with the overlong word. -/
theorem KnuthPlass_fits_or_collapses_witness :
    (0 : Int) < 3 ∧
    ∃ lines, KnuthPlass ["a", "toolongword", "b"] 3 = some lines ∧
      ((∀ line ∈ lines, (len line : Int) ≤ 3) ∨
        (lines = [strings.Join ["a", "toolongword", "b"] " "] ∧
          ∃ w ∈ ["a", "toolongword", "b"], (3 : Int) < (len w : Int))) :=
  ⟨by decide, KnuthPlass_fits_or_collapses ["a", "toolongword", "b"] 3 (by decide)⟩

/-- The partition property on the five one-letter words at width 3. -/
theorem KnuthPlass_partition_witness :
    ["a", "b", "c", "d", "e"] ≠ [] ∧ (0 : Int) < 3 ∧
    ∃ bs : List Nat,
      bs.head? = some 0 ∧ bs.getLast? = some ["a", "b", "c", "d", "e"].length ∧
      List.Chain' (fun a b => a < b) bs ∧ 2 ≤ bs.length ∧
      KnuthPlass ["a", "b", "c", "d", "e"] 3
        = some ((bs.zip bs.tail).map fun p =>
            strings.Join (slice ["a", "b", "c", "d", "e"] p.1 p.2) " ") ∧
      (∀ p ∈ bs.zip bs.tail, slice ["a", "b", "c", "d", "e"] p.1 p.2 ≠ []) ∧
      ((bs.zip bs.tail).map fun p => slice ["a", "b", "c", "d", "e"] p.1 p.2).flatten
        = ["a", "b", "c", "d", "e"] :=
  ⟨by decide, by decide,
    KnuthPlass_partition ["a", "b", "c", "d", "e"] 3 (by decide) (by decide)⟩

/-- Width safety on the nine-word test sentence at width 12. -/
theorem KnuthPlass_width_safe_witness :
    (0 : Int) < 12 ∧
    (∀ w ∈ ["This", "is", "a", "test", "of", "the", "emergency", "broadcast", "system"],
      (len w : Int) ≤ 12) ∧
    ∃ lines,
      KnuthPlass ["This", "is", "a", "test", "of", "the", "emergency", "broadcast", "system"] 12
        = some lines ∧
      ∀ line ∈ lines, (len line : Int) ≤ 12 :=
  ⟨by decide, by decide!,
    KnuthPlass_width_safe
      ["This", "is", "a", "test", "of", "the", "emergency", "broadcast", "system"] 12
      (by decide) (by decide!)⟩

/-- A single word longer than the width comes back as it is. -/
theorem KnuthPlass_single_witness :
    (0 : Int) < 3 ∧ KnuthPlass ["toolongword"] 3 = some ["toolongword"] :=
  ⟨by decide, KnuthPlass_single "toolongword" 3 (by decide)⟩

/-- The re-split round trip on two words without spaces. -/
theorem KnuthPlass_resplit_witness :
    ["Hello", "world"] ≠ [] ∧ (0 : Int) < 11 ∧ (∀ w ∈ ["Hello", "world"], ' ' ∉ w.data) ∧
    ∃ lines, KnuthPlass ["Hello", "world"] 11 = some lines ∧
      (lines.map strings.Split).flatten = ["Hello", "world"] :=
  ⟨by decide, by decide, by decide,
    KnuthPlass_resplit ["Hello", "world"] 11 (by decide) (by decide) (by decide)⟩

/-- Two five-letter words at width 5 are forced on two lines. -/
theorem KnuthPlass_one_word_per_line_witness :
    ["hello", "world"] ≠ [] ∧ (0 : Int) < 5 ∧
    (∀ w ∈ ["hello", "world"], (len w : Int) ≤ 5) ∧
    (∀ k (h : k + 1 < ["hello", "world"].length),
      (5 : Int) < (len ["hello", "world"][k] : Int) + 1 + (len ["hello", "world"][k + 1] : Int)) ∧
    KnuthPlass ["hello", "world"] 5 = some ["hello", "world"] :=
  have hadj : ∀ k (h : k + 1 < ["hello", "world"].length),
      (5 : Int) < (len ["hello", "world"][k] : Int) + 1 + (len ["hello", "world"][k + 1] : Int) := by
    intro k h
    match k, h with
    | 0, _ =>
      show (5 : Int) < (len "hello" : Int) + 1 + (len "world" : Int)
      decide
    | k + 1, h => exact absurd h (by simp)
  ⟨by decide, by decide, by decide, hadj,
    KnuthPlass_one_word_per_line ["hello", "world"] 5 (by decide) (by decide) (by decide) hadj⟩

/-! ## Reachability -/

/-- A reachable index has a partition of its prefix into lines that fit. -/
theorem partition_of_finite (words : List String) (maxWidth : Int) :
    ∀ (j : Nat) (v : Int), j ≤ words.length →
      (fillTables (cumLengths words) maxWidth words.length).minCost.getD j none = some v →
      ∃ bs, FeasiblePrefix words maxWidth j bs := by
  intro j
  induction j using Nat.strong_induction_on with
  | _ j ih =>
    intro v hj hv
    rcases Nat.eq_zero_or_pos j with h0 | h1
    · subst h0
      exact ⟨[0], rfl, rfl, List.chain'_singleton 0⟩
    · obtain ⟨hlt, _, hfit, vi, hvi, _⟩ := (fillTables_inv words maxWidth).pointer j v h1 hj hv
      obtain ⟨bs, hb0, hbl, hbc⟩ := ih _ hlt vi (by omega) hvi
      rw [totalLen_eq words _ j hlt hj] at hfit
      refine ⟨bs ++ [j], ?_, ?_, ?_⟩
      · cases bs with
        | nil => cases hb0
        | cons x t => simpa using hb0
      · simp
      · rw [List.chain'_append]
        refine ⟨hbc, List.chain'_singleton j, ?_⟩
        intro x hx y hy
        rw [hbl] at hx
        simp only [List.head?_cons, Option.mem_def, Option.some.injEq] at hx hy
        subst hx
        subst hy
        exact ⟨hlt, hfit⟩

/-- A chain of fitting lines that starts at a reachable index ends at a
reachable index. -/
theorem finite_of_chain (words : List String) (maxWidth : Int) :
    ∀ (bs : List Nat) (a b : Nat) (va : Int), bs.head? = some a → bs.getLast? = some b →
      b ≤ words.length →
      List.Chain' (fun a b => a < b ∧ (renderedWidth (slice words a b) : Int) ≤ maxWidth) bs →
      (fillTables (cumLengths words) maxWidth words.length).minCost.getD a none = some va →
      ∃ vb, (fillTables (cumLengths words) maxWidth words.length).minCost.getD b none = some vb
  | [], _, _, _, h, _, _, _, _ => by cases h
  | [x], a, b, va, ha, hb, _, _, hva => by
    simp at ha hb
    subst ha
    subst hb
    exact ⟨va, hva⟩
  | x :: y :: rest, a, b, va, ha, hb, hbn, hc, hva => by
    simp only [List.head?_cons, Option.some.injEq] at ha
    subst ha
    rw [List.getLast?_cons_cons] at hb
    rw [List.chain'_cons] at hc
    obtain ⟨⟨hxy, hfit⟩, hrest⟩ := hc
    have hyb := chain_head_le_last (fun _ _ h => h.1) (y :: rest) y b rfl hb hrest
    have hyn : y ≤ words.length := by omega
    rw [← totalLen_eq words x y hxy hyn] at hfit
    obtain ⟨vy, hvy, _, _⟩ := (fillTables_inv words maxWidth).relaxed x y va hxy hyn
      (by omega) hfit hva
    exact finite_of_chain words maxWidth (y :: rest) y b vy rfl hb hbn hrest hvy

/-- C12 (reachability): after the fill `minCost[0] = 0`, and `minCost[j]` is
finite exactly when `words[0:j]` has a partition into non-empty contiguous
lines of rendered width at most `maxWidth`. -/
theorem minCost_finite_iff (words : List String) (maxWidth : Int) (hne : words ≠ [])
    (hW : 0 < maxWidth) (j : Nat) (hj : j ≤ words.length) :
    finalMinCost words maxWidth 0 = some 0 ∧
    ((∃ v, finalMinCost words maxWidth j = some v)
      ↔ ∃ bs, FeasiblePrefix words maxWidth j bs) := by
  unfold finalMinCost
  have hstart := (fillTables_inv words maxWidth).start
  refine ⟨hstart, ?_, ?_⟩
  · rintro ⟨v, hv⟩
    exact partition_of_finite words maxWidth j v hj hv
  · rintro ⟨bs, h0, hl, hc⟩
    exact finite_of_chain words maxWidth bs 0 j 0 h0 hl hj hc hstart

theorem len_le_renderedWidth {ws : List String} {w : String} (h : w ∈ ws) :
    len w ≤ renderedWidth ws := by
  have : len w ≤ (ws.map len).sum := List.single_le_sum (by simp) _ (List.mem_map_of_mem len h)
  unfold renderedWidth
  omega

/-- Every word lies on a line of a partition of the whole list. -/
theorem fits_of_feasible (words : List String) (maxWidth : Int) (bs : List Nat)
    (h : FeasiblePrefix words maxWidth words.length bs) :
    ∀ w ∈ words, (len w : Int) ≤ maxWidth := by
  intro w hw
  obtain ⟨h0, hl, hc⟩ := h
  have hb := chain_bound (fun _ _ hab => hab.1) bs words.length hl hc
  have hflat := (flatten_slices words words.length bs 0 words.length h0 hl
    (List.Chain'.imp (fun _ _ h => ⟨h.1.1, h.2⟩) hb)).1
  rw [slice_self] at hflat
  rw [← hflat, List.mem_flatten] at hw
  obtain ⟨l, hl', hwl⟩ := hw
  rw [List.mem_map] at hl'
  obtain ⟨p, hp, rfl⟩ := hl'
  have hfit := (chain_zip_tail bs hc p hp).2
  have := len_le_renderedWidth hwl
  omega

/-- C15, as stated, fails on an input with an overlong word: `minCost[n]`
is `+Inf` after the fill. -/
theorem end_unreachable_on_overlong_word :
    finalMinCost ["a", "toolongword", "b"] 3 3 = none := by
  decide!

/-- C15 (the fill reaches the end, amended): `minCost[n]` is finite after the
fill exactly when no word is longer than `maxWidth`; a one-word line is
accepted only when it fits. -/
theorem minCost_end_finite_iff (words : List String) (maxWidth : Int) (hne : words ≠ [])
    (hW : 0 < maxWidth) :
    (∃ v, finalMinCost words maxWidth words.length = some v)
      ↔ ∀ w ∈ words, (len w : Int) ≤ maxWidth := by
  unfold finalMinCost
  constructor
  · rintro ⟨v, hv⟩
    obtain ⟨bs, hbs⟩ := partition_of_finite words maxWidth words.length v (le_refl _) hv
    exact fits_of_feasible words maxWidth bs hbs
  · intro hfit
    exact minCost_finite_of_fit words maxWidth hfit words.length (le_refl _)

/-- C16 (collapse on an overlong word): when some word is longer than
`maxWidth`, `minCost[n]` is `+Inf`, `lineBreaks[n]` is `0`, and the result is
the single line `strings.Join(words, " ")`. -/
theorem KnuthPlass_collapse (words : List String) (maxWidth : Int) (hne : words ≠ [])
    (hW : 0 < maxWidth) (hlong : ∃ w ∈ words, maxWidth < (len w : Int)) :
    finalMinCost words maxWidth words.length = none ∧
    finalLineBreak words maxWidth words.length = 0 ∧
    KnuthPlass words maxWidth = some [strings.Join words " "] := by
  unfold finalMinCost finalLineBreak
  have hlen : words.length ≠ 0 := fun h => hne (List.length_eq_zero.mp h)
  have hnone : (fillTables (cumLengths words) maxWidth words.length).minCost.getD
      words.length none = none := by
    cases hv : (fillTables (cumLengths words) maxWidth words.length).minCost.getD
        words.length none with
    | none => rfl
    | some v =>
      exfalso
      obtain ⟨bs, hbs⟩ := partition_of_finite words maxWidth words.length v (le_refl _) hv
      obtain ⟨w, hw, hgt⟩ := hlong
      have := fits_of_feasible words maxWidth bs hbs w hw
      omega
  have hlb := (fillTables_inv words maxWidth).unreached words.length (le_refl _) hnone
  refine ⟨hnone, hlb, ?_⟩
  obtain ⟨bs, hK, h0, hn, hc⟩ := KnuthPlass_eq words maxWidth hne hW
  rw [hK, chain_eq_pair _ words.length hlen hlb bs h0 hn hc]
  simp [buildLines, slice_self]

/-! ## Early termination -/

/-- Once a line is too long, the loop without `break` changes nothing more. -/
theorem innerLoopNoBreak_of_overflow (words : List String) (maxWidth : Int) (i : Nat) :
    ∀ (k j : Nat) (t : Tables), j + k = words.length + 1 →
      totalLen (cumLengths words) i j > maxWidth →
      innerLoopNoBreak (cumLengths words) maxWidth words.length i k j t = t
  | 0, _, _, _, _ => rfl
  | k + 1, j, t, hk, hbr => by
    rw [innerLoopNoBreak, if_pos hbr]
    rcases Nat.eq_zero_or_pos k with h0 | h1
    · subst h0; rfl
    · have := totalLen_strictMono words i j (j + 1) (Nat.lt_succ_self j) (by omega)
      exact innerLoopNoBreak_of_overflow words maxWidth i k (j + 1) t (by omega) (by omega)

theorem innerLoop_eq_noBreak (words : List String) (maxWidth : Int) (i : Nat) :
    ∀ (k j : Nat) (t : Tables), j + k = words.length + 1 →
      innerLoop (cumLengths words) maxWidth words.length i k j t
        = innerLoopNoBreak (cumLengths words) maxWidth words.length i k j t
  | 0, _, _, _ => rfl
  | k + 1, j, t, hk => by
    rw [innerLoop, innerLoopNoBreak]
    by_cases hbr : totalLen (cumLengths words) i j > maxWidth
    · rw [if_pos hbr, if_pos hbr]
      rcases Nat.eq_zero_or_pos k with h0 | h1
      · subst h0; rfl
      · have := totalLen_strictMono words i j (j + 1) (Nat.lt_succ_self j) (by omega)
        exact (innerLoopNoBreak_of_overflow words maxWidth i k (j + 1) t (by omega)
          (by omega)).symm
    · rw [if_neg hbr, if_neg hbr]
      exact innerLoop_eq_noBreak words maxWidth i k (j + 1) _ (by omega)

theorem outerStep_eq_noBreak (words : List String) (maxWidth : Int) (t : Tables) (i : Nat)
    (hi : i < words.length) :
    outerStep (cumLengths words) maxWidth words.length t i
      = outerStepNoBreak (cumLengths words) maxWidth words.length t i := by
  rw [outerStep, outerStepNoBreak,
    innerLoop_eq_noBreak words maxWidth i (words.length - i) (i + 1) t (by omega)]

theorem foldl_outerStep_eq_noBreak (words : List String) (maxWidth : Int) :
    ∀ m, m ≤ words.length →
      (List.range m).foldl (outerStep (cumLengths words) maxWidth words.length)
          (initTables words.length)
        = (List.range m).foldl (outerStepNoBreak (cumLengths words) maxWidth words.length)
          (initTables words.length)
  | 0, _ => rfl
  | m + 1, hm => by
    rw [List.range_succ, List.foldl_append, List.foldl_append,
      foldl_outerStep_eq_noBreak words maxWidth m (by omega)]
    simp only [List.foldl_cons, List.foldl_nil]
    exact outerStep_eq_noBreak words maxWidth _ m (by omega)

/-- C17 (early termination is exact): for a fixed line start the rendered
width grows strictly with the line end, and the fill that stops at the first
line that is too long computes the same tables, hence the same output, as
the fill that examines every line end and skips the lines that are too long. -/
theorem break_is_exact (words : List String) (maxWidth : Int) :
    (∀ i j j', j < j' → j' ≤ words.length →
      totalLen (cumLengths words) i j < totalLen (cumLengths words) i j') ∧
    fillTables (cumLengths words) maxWidth words.length
      = fillTablesNoBreak (cumLengths words) maxWidth words.length ∧
    KnuthPlass words maxWidth = KnuthPlassNoBreak words maxWidth := by
  have hfill : fillTables (cumLengths words) maxWidth words.length
      = fillTablesNoBreak (cumLengths words) maxWidth words.length :=
    foldl_outerStep_eq_noBreak words maxWidth words.length (le_refl _)
  refine ⟨fun i j j' hj hn => totalLen_strictMono words i j j' hj hn, hfill, ?_⟩
  simp only [KnuthPlass, KnuthPlassNoBreak, hfill]

/-! ## Totality of the reconstruction -/

theorem desc_chain_length :
    ∀ (l : List Nat) (j : Nat), l.head? = some j → List.Chain' (fun a b => b < a) l →
      l.length ≤ j + 1
  | [], _, h, _ => by cases h
  | [x], j, _, _ => by simp
  | x :: y :: rest, j, hj, hc => by
    simp only [List.head?_cons, Option.some.injEq] at hj
    subst hj
    rw [List.chain'_cons] at hc
    have := desc_chain_length (y :: rest) y rfl hc.2
    simp only [List.length_cons] at this ⊢
    omega

/-- C18 (totality of the reconstruction): the tables have length `n + 1`,
every back-pointer `lineBreaks[j]` with `1 ≤ j ≤ n` is below `j`, the walk
from `n` strictly decreases and stops at `0` after at most `n` steps, every
slice `words[start:end]` has `start < end ≤ n`, and `KnuthPlass` returns on
every input. -/
theorem reconstruction_total (words : List String) (maxWidth : Int) (hne : words ≠ [])
    (hW : 0 < maxWidth) :
    (fillTables (cumLengths words) maxWidth words.length).minCost.length = words.length + 1 ∧
    (fillTables (cumLengths words) maxWidth words.length).lineBreaks.length
      = words.length + 1 ∧
    (∀ j, 1 ≤ j → j ≤ words.length →
      (fillTables (cumLengths words) maxWidth words.length).lineBreaks.getD j 0 < j) ∧
    (∃ visited,
      walkBack (fillTables (cumLengths words) maxWidth words.length).lineBreaks
        words.length words.length = some visited ∧
      visited.length ≤ words.length ∧
      List.Chain' (fun a b => b < a) (visited ++ [0]) ∧
      (∀ p ∈ ((visited ++ [0]).reverse).zip ((visited ++ [0]).reverse).tail,
        p.1 < p.2 ∧ p.2 ≤ words.length) ∧
      KnuthPlass words maxWidth = some (buildLines words (visited ++ [0]).reverse)) ∧
    (∀ (ws : List String) (w : Int), ∃ lines, KnuthPlass ws w = some lines) := by
  have hn : words.length ≠ 0 := fun h => hne (List.length_eq_zero.mp h)
  have hinv := fillTables_inv words maxWidth
  obtain ⟨v, hv, hhead, hchain⟩ := walkBack_spec _ words.length hinv.length_lineBreaks
    (lineBreaks_lt words maxWidth) words.length words.length (le_refl _) (le_refl _)
  have hdesc : List.Chain' (fun a b => b < a) (v ++ [0]) :=
    List.Chain'.imp (fun _ _ h => h.1) hchain
  refine ⟨hinv.length_minCost, hinv.length_lineBreaks, lineBreaks_lt words maxWidth,
    ⟨v, hv, ?_, hdesc, ?_, ?_⟩, ?_⟩
  · have := desc_chain_length (v ++ [0]) words.length hhead hdesc
    simp only [List.length_append, List.length_singleton] at this
    omega
  · intro p hp
    have hrev : List.Chain' (BreakStep
        (fillTables (cumLengths words) maxWidth words.length).lineBreaks words.length)
        (v ++ [0]).reverse := List.chain'_reverse.mpr hchain
    have := chain_zip_tail _ hrev p hp
    exact ⟨this.1, this.2.1⟩
  · simp only [KnuthPlass, if_neg (not_le.mpr hW), if_neg hn, hv, Option.map_some']
  · intro ws w
    by_cases hw : w ≤ 0
    · exact ⟨[], by simp [KnuthPlass, hw]⟩
    · by_cases hws : ws = []
      · subst hws
        exact ⟨[], by simp [KnuthPlass]⟩
      · obtain ⟨bs, hK, _⟩ := KnuthPlass_eq ws w hws (not_le.mp hw)
        exact ⟨_, hK⟩

/-- The reconstruction on the five one-letter words at width 3. -/
theorem reconstruction_total_witness :
    ["a", "b", "c", "d", "e"] ≠ [] ∧ (0 : Int) < 3 ∧
    ((fillTables (cumLengths ["a", "b", "c", "d", "e"]) 3
        ["a", "b", "c", "d", "e"].length).minCost.length
      = ["a", "b", "c", "d", "e"].length + 1 ∧
    (fillTables (cumLengths ["a", "b", "c", "d", "e"]) 3
        ["a", "b", "c", "d", "e"].length).lineBreaks.length
      = ["a", "b", "c", "d", "e"].length + 1 ∧
    (∀ j, 1 ≤ j → j ≤ ["a", "b", "c", "d", "e"].length →
      (fillTables (cumLengths ["a", "b", "c", "d", "e"]) 3
        ["a", "b", "c", "d", "e"].length).lineBreaks.getD j 0 < j) ∧
    (∃ visited,
      walkBack (fillTables (cumLengths ["a", "b", "c", "d", "e"]) 3
          ["a", "b", "c", "d", "e"].length).lineBreaks
        ["a", "b", "c", "d", "e"].length ["a", "b", "c", "d", "e"].length = some visited ∧
      visited.length ≤ ["a", "b", "c", "d", "e"].length ∧
      List.Chain' (fun a b => b < a) (visited ++ [0]) ∧
      (∀ p ∈ ((visited ++ [0]).reverse).zip ((visited ++ [0]).reverse).tail,
        p.1 < p.2 ∧ p.2 ≤ ["a", "b", "c", "d", "e"].length) ∧
      KnuthPlass ["a", "b", "c", "d", "e"] 3
        = some (buildLines ["a", "b", "c", "d", "e"] (visited ++ [0]).reverse)) ∧
    (∀ (ws : List String) (w : Int), ∃ lines, KnuthPlass ws w = some lines)) :=
  ⟨by decide, by decide,
    reconstruction_total ["a", "b", "c", "d", "e"] 3 (by decide) (by decide)⟩

/-! ## Slack and cube -/

theorem totalLen_nonneg (words : List String) (i j : Nat) (hij : i < j)
    (hj : j ≤ words.length) : 0 ≤ totalLen (cumLengths words) i j := by
  rw [totalLen_eq words i j hij hj]
  exact Int.ofNat_nonneg _

/-- C19 (slack bounds and exact cube): for a pair `(i, j)` that passes the
width check the slack lies between `0` and `maxWidth`, so its cube is not
negative; and for `maxWidth ≤ 2^21 - 1` the product `slack * slack * slack`
in 64-bit integers is the mathematical cube. -/
theorem slack_bounds_and_exact_cube (words : List String) (maxWidth : Int)
    (hW : 0 < maxWidth) (i j : Nat) (hij : i < j) (hj : j ≤ words.length)
    (hfit : totalLen (cumLengths words) i j ≤ maxWidth) (slack : Int)
    (hs : slack = maxWidth - totalLen (cumLengths words) i j) :
    0 ≤ slack ∧ slack ≤ maxWidth ∧ 0 ≤ slack ^ 3 ∧
    (maxWidth ≤ 2097151 →
      wrapInt64 (slack * slack) = slack * slack ∧
      wrapInt64 (wrapInt64 (slack * slack) * slack) = slack ^ 3 ∧
      wrapInt64 (slack * slack * slack) = slack ^ 3) := by
  have h0 := totalLen_nonneg words i j hij hj
  have hs0 : 0 ≤ slack := by omega
  have hsW : slack ≤ maxWidth := by omega
  refine ⟨hs0, hsW, by positivity, ?_⟩
  intro hmax
  have hs1 : slack ≤ 2097151 := by omega
  have hsq0 : 0 ≤ slack * slack := mul_nonneg hs0 hs0
  have hsq : slack * slack ≤ 2097151 * 2097151 := mul_le_mul hs1 hs1 hs0 (by norm_num)
  have hcube : slack ^ 3 ≤ 2097151 ^ 3 := pow_le_pow_left₀ hs0 hs1 3
  have hc0 : 0 ≤ slack ^ 3 := by positivity
  have hmul : slack * slack * slack = slack ^ 3 := by ring
  have e1 : wrapInt64 (slack * slack) = slack * slack :=
    wrapInt64_exact _ hsq0 (lt_of_le_of_lt hsq (by norm_num))
  have e2 : wrapInt64 (slack * slack * slack) = slack ^ 3 := by
    rw [hmul]
    exact wrapInt64_exact _ hc0 (lt_of_le_of_lt hcube (by norm_num))
  refine ⟨e1, ?_, e2⟩
  rw [e1, e2]

/-- The slack bounds on the first word of the five one-letter words. -/
theorem slack_bounds_and_exact_cube_witness :
    (0 : Int) < 3 ∧ 0 < 1 ∧ 1 ≤ ["a", "b", "c", "d", "e"].length ∧
    totalLen (cumLengths ["a", "b", "c", "d", "e"]) 0 1 ≤ 3 ∧
    (2 : Int) = 3 - totalLen (cumLengths ["a", "b", "c", "d", "e"]) 0 1 ∧
    ((0 : Int) ≤ 2 ∧ (2 : Int) ≤ 3 ∧ (0 : Int) ≤ 2 ^ 3 ∧
    ((3 : Int) ≤ 2097151 →
      wrapInt64 (2 * 2) = 2 * 2 ∧
      wrapInt64 (wrapInt64 (2 * 2) * 2) = 2 ^ 3 ∧
      wrapInt64 (2 * 2 * 2) = 2 ^ 3)) :=
  ⟨by decide, by decide, by decide, by decide, by decide,
    slack_bounds_and_exact_cube ["a", "b", "c", "d", "e"] 3 (by decide) 0 1 (by decide)
      (by decide) (by decide) 2 (by decide)⟩

/-! ## The back-pointer and its ties -/

/-- C13, as stated, fails at the width `2^63 - 1`: `minCost[1]` is `-8`,
not `minCost[0]` plus the cube of the slack. -/
theorem pointer_equation_fails_at_max_int :
    finalMinCost ["a", "b"] 9223372036854775807 1 = some (-8) ∧
    finalLineBreak ["a", "b"] 9223372036854775807 1 = 0 ∧
    finalMinCost ["a", "b"] 9223372036854775807 0 = some 0 ∧
    (-8 : Int) ≠ 0 + penalty ["a", "b"] 9223372036854775807 0 1 := by
  refine ⟨by decide!, by decide!, by decide!, by decide!⟩

/-- C13 (back-pointer invariant, amended): for a reachable `j ≥ 1` the
back-pointer `i = lineBreaks[j]` is below `j`, the line `words[i:j]` fits,
`minCost[i]` is finite, and `minCost[j]` is the candidate of `i` and is at
most the candidate of every fitting line start, as the code computes the
candidates; when `n * maxWidth^3 < 2^53` the candidates are the exact
`minCost[i] + penalty(i, j)`. -/
theorem pointer_minimal (words : List String) (maxWidth : Int) (hne : words ≠ [])
    (hW : 0 < maxWidth) (j : Nat) (h1 : 1 ≤ j) (hj : j ≤ words.length) (v : Int)
    (hv : finalMinCost words maxWidth j = some v) :
    finalLineBreak words maxWidth j < j ∧
    (renderedWidth (slice words (finalLineBreak words maxWidth j) j) : Int) ≤ maxWidth ∧
    ∃ vi, finalMinCost words maxWidth (finalLineBreak words maxWidth j) = some vi ∧
      v = candidate words maxWidth vi (finalLineBreak words maxWidth j) j ∧
      (∀ i' v', i' < j → (renderedWidth (slice words i' j) : Int) ≤ maxWidth →
        finalMinCost words maxWidth i' = some v' →
        v ≤ candidate words maxWidth v' i' j) ∧
      (ExactRange words maxWidth →
        v = vi + penalty words maxWidth (finalLineBreak words maxWidth j) j ∧
        ∀ i' v', i' < j → (renderedWidth (slice words i' j) : Int) ≤ maxWidth →
          finalMinCost words maxWidth i' = some v' →
          v ≤ v' + penalty words maxWidth i' j) := by
  unfold finalMinCost finalLineBreak at *
  have hinv := fillTables_inv words maxWidth
  obtain ⟨hlt, _, hfit, vi, hvi, he⟩ := hinv.pointer j v h1 hj hv
  have hmin : ∀ i' v', i' < j → (renderedWidth (slice words i' j) : Int) ≤ maxWidth →
      (fillTables (cumLengths words) maxWidth words.length).minCost.getD i' none = some v' →
      v ≤ candidate words maxWidth v' i' j := by
    intro i' v' hi' hf' hv'
    rw [← totalLen_eq words i' j hi' hj] at hf'
    obtain ⟨vj, e1, e2, _⟩ := hinv.relaxed i' j v' hi' hj (by omega) hf' hv'
    rw [hv] at e1
    cases e1
    exact e2
  refine ⟨hlt, ?_, vi, hvi, he, hmin, ?_⟩
  · rw [← totalLen_eq words _ j hlt hj]
    exact hfit
  · intro hx
    obtain ⟨b0, b1⟩ := minCost_bounds words maxWidth hW hx _ vi (by omega) hvi
    obtain ⟨c1, _, _⟩ := candidate_exact words maxWidth hW hx _ j hlt hj hfit vi b0 b1
    refine ⟨by rw [he, c1], ?_⟩
    intro i' v' hi' hf' hv'
    have hle := hmin i' v' hi' hf' hv'
    rw [← totalLen_eq words i' j hi' hj] at hf'
    obtain ⟨d0, d1⟩ := minCost_bounds words maxWidth hW hx i' v' (by omega) hv'
    obtain ⟨c2, _, _⟩ := candidate_exact words maxWidth hW hx i' j hi' hj hf' v' d0 d1
    rw [c2] at hle
    exact hle

/-- The back-pointer of the index `4` of the five one-letter words at width 3. -/
theorem pointer_minimal_witness :
    ["a", "b", "c", "d", "e"] ≠ [] ∧ (0 : Int) < 3 ∧ 1 ≤ 4 ∧
    4 ≤ ["a", "b", "c", "d", "e"].length ∧
    finalMinCost ["a", "b", "c", "d", "e"] 3 4 = some 0 ∧
    (finalLineBreak ["a", "b", "c", "d", "e"] 3 4 < 4 ∧
    (renderedWidth (slice ["a", "b", "c", "d", "e"]
      (finalLineBreak ["a", "b", "c", "d", "e"] 3 4) 4) : Int) ≤ 3 ∧
    ∃ vi, finalMinCost ["a", "b", "c", "d", "e"] 3
        (finalLineBreak ["a", "b", "c", "d", "e"] 3 4) = some vi ∧
      0 = candidate ["a", "b", "c", "d", "e"] 3 vi
        (finalLineBreak ["a", "b", "c", "d", "e"] 3 4) 4 ∧
      (∀ i' v', i' < 4 → (renderedWidth (slice ["a", "b", "c", "d", "e"] i' 4) : Int) ≤ 3 →
        finalMinCost ["a", "b", "c", "d", "e"] 3 i' = some v' →
        0 ≤ candidate ["a", "b", "c", "d", "e"] 3 v' i' 4) ∧
      (ExactRange ["a", "b", "c", "d", "e"] 3 →
        0 = vi + penalty ["a", "b", "c", "d", "e"] 3
          (finalLineBreak ["a", "b", "c", "d", "e"] 3 4) 4 ∧
        ∀ i' v', i' < 4 → (renderedWidth (slice ["a", "b", "c", "d", "e"] i' 4) : Int) ≤ 3 →
          finalMinCost ["a", "b", "c", "d", "e"] 3 i' = some v' →
          0 ≤ v' + penalty ["a", "b", "c", "d", "e"] 3 i' 4)) :=
  ⟨by decide, by decide, by decide, by decide, by decide!,
    pointer_minimal ["a", "b", "c", "d", "e"] 3 (by decide) (by decide) 4 (by decide)
      (by decide) 0 (by decide!)⟩

/-- C14, as stated, fails at the width `2^63 - 1`: `minCost[1]` is `-8` and
`lineBreaks[1]` is `0`, and no line start attains
`minCost[i] + penalty(i, 1) = minCost[1]`. -/
theorem no_start_attains_at_max_int :
    finalMinCost ["a", "b"] 9223372036854775807 1 = some (-8) ∧
    finalLineBreak ["a", "b"] 9223372036854775807 1 = 0 ∧
    ∀ i' v', i' < 1 → finalMinCost ["a", "b"] 9223372036854775807 i' = some v' →
      v' + penalty ["a", "b"] 9223372036854775807 i' 1 ≠ -8 := by
  refine ⟨by decide!, by decide!, ?_⟩
  intro i' v' hi' hv'
  have hi0 : i' = 0 := by omega
  subst hi0
  have h0 : finalMinCost ["a", "b"] 9223372036854775807 0 = some 0 := by decide!
  rw [h0] at hv'
  cases hv'
  decide!

/-- C14 (tie-breaking, amended): for a reachable `j ≥ 1` the back-pointer
`lineBreaks[j]` is the smallest fitting line start whose candidate, as the
code computes it, equals `minCost[j]`; when `n * maxWidth^3 < 2^53` it is
the smallest fitting line start `i` with `minCost[i] + penalty(i, j)
= minCost[j]`. -/
theorem pointer_first (words : List String) (maxWidth : Int) (hne : words ≠ [])
    (hW : 0 < maxWidth) (j : Nat) (h1 : 1 ≤ j) (hj : j ≤ words.length) (v : Int)
    (hv : finalMinCost words maxWidth j = some v) :
    finalLineBreak words maxWidth j < j ∧
    (renderedWidth (slice words (finalLineBreak words maxWidth j) j) : Int) ≤ maxWidth ∧
    ∃ vi, finalMinCost words maxWidth (finalLineBreak words maxWidth j) = some vi ∧
      candidate words maxWidth vi (finalLineBreak words maxWidth j) j = v ∧
      (∀ i' v', i' < j → (renderedWidth (slice words i' j) : Int) ≤ maxWidth →
        finalMinCost words maxWidth i' = some v' →
        candidate words maxWidth v' i' j = v → finalLineBreak words maxWidth j ≤ i') ∧
      (ExactRange words maxWidth →
        vi + penalty words maxWidth (finalLineBreak words maxWidth j) j = v ∧
        ∀ i' v', i' < j → (renderedWidth (slice words i' j) : Int) ≤ maxWidth →
          finalMinCost words maxWidth i' = some v' →
          v' + penalty words maxWidth i' j = v → finalLineBreak words maxWidth j ≤ i') := by
  unfold finalMinCost finalLineBreak at *
  have hinv := fillTables_inv words maxWidth
  obtain ⟨hlt, _, hfit, vi, hvi, he⟩ := hinv.pointer j v h1 hj hv
  have htie : ∀ i' v', i' < j → (renderedWidth (slice words i' j) : Int) ≤ maxWidth →
      (fillTables (cumLengths words) maxWidth words.length).minCost.getD i' none = some v' →
      candidate words maxWidth v' i' j = v →
      (fillTables (cumLengths words) maxWidth words.length).lineBreaks.getD j 0 ≤ i' := by
    intro i' v' hi' hf' hv' heq
    rw [← totalLen_eq words i' j hi' hj] at hf'
    obtain ⟨vj, e1, _, e3⟩ := hinv.relaxed i' j v' hi' hj (by omega) hf' hv'
    rw [hv] at e1
    cases e1
    exact e3 heq.symm
  refine ⟨hlt, ?_, vi, hvi, he.symm, htie, ?_⟩
  · rw [← totalLen_eq words _ j hlt hj]
    exact hfit
  · intro hx
    obtain ⟨b0, b1⟩ := minCost_bounds words maxWidth hW hx _ vi (by omega) hvi
    obtain ⟨c1, _, _⟩ := candidate_exact words maxWidth hW hx _ j hlt hj hfit vi b0 b1
    refine ⟨by rw [he, c1], ?_⟩
    intro i' v' hi' hf' hv' heq
    have hf'' := hf'
    rw [← totalLen_eq words i' j hi' hj] at hf''
    obtain ⟨d0, d1⟩ := minCost_bounds words maxWidth hW hx i' v' (by omega) hv'
    obtain ⟨c2, _, _⟩ := candidate_exact words maxWidth hW hx i' j hi' hj hf'' v' d0 d1
    exact htie i' v' hi' hf' hv' (by rw [c2, heq])

/-- A tie at the index `3` of four one-letter words at width 3: the line
starts `1` and `2` both offer the cost `8`, and the back-pointer is `1`. -/
theorem pointer_first_witness :
    ["a", "b", "c", "d"] ≠ [] ∧ (0 : Int) < 3 ∧ 1 ≤ 3 ∧ 3 ≤ ["a", "b", "c", "d"].length ∧
    finalMinCost ["a", "b", "c", "d"] 3 3 = some 8 ∧
    finalLineBreak ["a", "b", "c", "d"] 3 3 = 1 ∧
    candidate ["a", "b", "c", "d"] 3 8 1 3 = 8 ∧ candidate ["a", "b", "c", "d"] 3 0 2 3 = 8 ∧
    (finalLineBreak ["a", "b", "c", "d"] 3 3 < 3 ∧
    (renderedWidth (slice ["a", "b", "c", "d"]
      (finalLineBreak ["a", "b", "c", "d"] 3 3) 3) : Int) ≤ 3 ∧
    ∃ vi, finalMinCost ["a", "b", "c", "d"] 3 (finalLineBreak ["a", "b", "c", "d"] 3 3)
        = some vi ∧
      candidate ["a", "b", "c", "d"] 3 vi (finalLineBreak ["a", "b", "c", "d"] 3 3) 3 = 8 ∧
      (∀ i' v', i' < 3 → (renderedWidth (slice ["a", "b", "c", "d"] i' 3) : Int) ≤ 3 →
        finalMinCost ["a", "b", "c", "d"] 3 i' = some v' →
        candidate ["a", "b", "c", "d"] 3 v' i' 3 = 8 →
        finalLineBreak ["a", "b", "c", "d"] 3 3 ≤ i') ∧
      (ExactRange ["a", "b", "c", "d"] 3 →
        vi + penalty ["a", "b", "c", "d"] 3 (finalLineBreak ["a", "b", "c", "d"] 3 3) 3 = 8 ∧
        ∀ i' v', i' < 3 → (renderedWidth (slice ["a", "b", "c", "d"] i' 3) : Int) ≤ 3 →
          finalMinCost ["a", "b", "c", "d"] 3 i' = some v' →
          v' + penalty ["a", "b", "c", "d"] 3 i' 3 = 8 →
          finalLineBreak ["a", "b", "c", "d"] 3 3 ≤ i')) :=
  ⟨by decide, by decide, by decide, by decide, by decide!, by decide!, by decide!, by decide!,
    pointer_first ["a", "b", "c", "d"] 3 (by decide) (by decide) 3 (by decide) (by decide) 8
      (by decide!)⟩

/-! ## Partitions without slack -/

theorem roundFloat64_eq_zero (x : Int) (h0 : 0 ≤ x) (h : roundFloat64 x = 0) : x = 0 := by
  unfold roundFloat64 at h
  simp only at h
  split at h
  · exact h
  · rename_i hbig
    exfalso
    have hpos : 0 < x := by
      by_contra hnp
      have hx0 : x = 0 := by omega
      apply hbig
      rw [hx0]
      decide
    have ha : x.natAbs ≠ 0 := by omega
    have hle : 2 ^ (x.natAbs.log2 - 52) ≤ x.natAbs :=
      le_trans (Nat.pow_le_pow_right (by decide) (Nat.sub_le _ _)) (Nat.log2_self_le ha)
    have hq : 1 ≤ x.natAbs / 2 ^ (x.natAbs.log2 - 52) :=
      (Nat.one_le_div_iff (Nat.pos_pow_of_pos _ (by decide))).mpr hle
    have hp : 0 < 2 ^ (x.natAbs.log2 - 52) := Nat.pos_pow_of_pos _ (by decide)
    rw [Int.sign_eq_one_of_pos hpos, one_mul] at h
    have hz : (if 2 ^ (x.natAbs.log2 - 52 - 1) < x.natAbs % 2 ^ (x.natAbs.log2 - 52) ∨
          x.natAbs % 2 ^ (x.natAbs.log2 - 52) = 2 ^ (x.natAbs.log2 - 52 - 1) ∧
            x.natAbs / 2 ^ (x.natAbs.log2 - 52) % 2 = 1
        then x.natAbs / 2 ^ (x.natAbs.log2 - 52) + 1
        else x.natAbs / 2 ^ (x.natAbs.log2 - 52)) * 2 ^ (x.natAbs.log2 - 52) = 0 := by
      exact_mod_cast h
    rcases Nat.mul_eq_zero.mp hz with hq1 | hp0
    · split at hq1 <;> omega
    · omega

/-- Up to `maxWidth = 2^21 - 1` a fitting line that does not end the
paragraph costs nothing only if it has no slack. -/
theorem lineCost_eq_zero (words : List String) (maxWidth : Int) (hmax : maxWidth ≤ 2097151)
    (i j : Nat) (hij : i < j) (hj : j ≤ words.length) (hjn : j ≠ words.length)
    (hfit : totalLen (cumLengths words) i j ≤ maxWidth)
    (hz : lineCost maxWidth words.length j (totalLen (cumLengths words) i j) = 0) :
    totalLen (cumLengths words) i j = maxWidth := by
  have h0 := totalLen_nonneg words i j hij hj
  unfold lineCost at hz
  simp only [if_neg hjn] at hz
  have hs0 : 0 ≤ maxWidth - totalLen (cumLengths words) i j := by omega
  have hs1 : maxWidth - totalLen (cumLengths words) i j ≤ 2097151 := by omega
  have hcube : (maxWidth - totalLen (cumLengths words) i j) ^ 3 ≤ 2097151 ^ 3 :=
    pow_le_pow_left₀ hs0 hs1 3
  have hc0 : 0 ≤ (maxWidth - totalLen (cumLengths words) i j) ^ 3 := by positivity
  have hmul : (maxWidth - totalLen (cumLengths words) i j)
        * (maxWidth - totalLen (cumLengths words) i j)
        * (maxWidth - totalLen (cumLengths words) i j)
      = (maxWidth - totalLen (cumLengths words) i j) ^ 3 := by ring
  rw [hmul, wrapInt64_exact _ hc0 (lt_of_le_of_lt hcube (by norm_num))] at hz
  have := roundFloat64_eq_zero _ hc0 hz
  have := pow_eq_zero_iff (n := 3) (by decide) |>.mp this
  omega

/-- The cost of a line without slack, and of the line that ends the
paragraph, is zero. -/
theorem lineCost_of_no_slack (maxWidth : Int) (n j : Nat) (tl : Int)
    (h : j ≠ n → tl = maxWidth) : lineCost maxWidth n j tl = 0 := by
  unfold lineCost
  by_cases hjn : j = n
  · simp [hjn]
  · simp only [if_neg hjn, h hjn, sub_self]
    decide

/-- Along a feasible chain whose lines before the last have no slack the
value `0` is handed on: `minCost[n] = 0`. -/
theorem minCost_zero_of_no_slack (words : List String) (maxWidth : Int)
    (hmax : maxWidth ≤ 2097151) :
    ∀ (bs : List Nat) (a : Nat), bs.head? = some a → bs.getLast? = some words.length →
      List.Chain' (fun a b => (a < b ∧ (renderedWidth (slice words a b) : Int) ≤ maxWidth) ∧
        b ≤ words.length) bs →
      (∀ p ∈ bs.zip bs.tail, p.2 ≠ words.length →
        (renderedWidth (slice words p.1 p.2) : Int) = maxWidth) →
      finalMinCost words maxWidth a = some 0 →
      finalMinCost words maxWidth words.length = some 0
  | [], _, h, _, _, _, _ => by cases h
  | [x], a, ha, hb, _, _, hva => by
    simp at ha hb
    subst ha
    subst hb
    exact hva
  | x :: y :: rest, a, ha, hb, hc, hz, hva => by
    simp only [List.head?_cons, Option.some.injEq] at ha
    subst ha
    rw [List.getLast?_cons_cons] at hb
    rw [List.chain'_cons] at hc
    obtain ⟨⟨⟨hxy, hfit⟩, hyn⟩, hrest⟩ := hc
    have hzxy := hz (x, y) (by simp)
    rw [← totalLen_eq words x y hxy hyn] at hfit hzxy
    unfold finalMinCost at hva
    obtain ⟨vy, hvy, hle, _⟩ := (fillTables_inv words maxWidth).relaxed x y 0 hxy hyn
      (by omega) hfit hva
    have hcand : candidate words maxWidth 0 x y = 0 := by
      rw [candidate, lineCost_of_no_slack maxWidth words.length y _ hzxy]
      decide
    have hnn := minCost_nonneg words maxWidth hmax y vy hyn hvy
    have hvy0 : vy = 0 := by omega
    subst hvy0
    exact minCost_zero_of_no_slack words maxWidth hmax (y :: rest) y rfl hb hrest
      (fun p hp => hz p (by
        simp only [List.tail_cons, List.zip_cons_cons, List.mem_cons]
        right
        simpa using hp))
      hvy

/-- Along the back-pointers the value `0` is handed back: when the last
index of the chain has cost `0`, so has the first, and no line of the chain
before the end of the paragraph has slack. -/
theorem no_slack_of_minCost_zero (words : List String) (maxWidth : Int)
    (hmax : maxWidth ≤ 2097151) :
    ∀ (bs : List Nat) (a b : Nat), bs.head? = some a → bs.getLast? = some b →
      List.Chain' (BreakStep (fillTables (cumLengths words) maxWidth words.length).lineBreaks
        words.length) bs →
      finalMinCost words maxWidth b = some 0 →
      finalMinCost words maxWidth a = some 0 ∧
      ∀ p ∈ bs.zip bs.tail, p.2 ≠ words.length →
        (renderedWidth (slice words p.1 p.2) : Int) = maxWidth
  | [], _, _, h, _, _, _ => by cases h
  | [x], a, b, ha, hb, _, hvb => by
    simp at ha hb
    subst ha
    subst hb
    exact ⟨hvb, by simp⟩
  | x :: y :: rest, a, b, ha, hb, hc, hvb => by
    simp only [List.head?_cons, Option.some.injEq] at ha
    subst ha
    rw [List.getLast?_cons_cons] at hb
    rw [List.chain'_cons] at hc
    obtain ⟨⟨hxy, hyn, hlb⟩, hrest⟩ := hc
    obtain ⟨hvy, hzrest⟩ :=
      no_slack_of_minCost_zero words maxWidth hmax (y :: rest) y b rfl hb hrest hvb
    unfold finalMinCost at hvy ⊢
    obtain ⟨_, _, hfit, vx, hvx, hcand⟩ :=
      (fillTables_inv words maxWidth).pointer y 0 (by omega) hyn hvy
    rw [← hlb] at hfit hvx hcand
    have hx0 := minCost_nonneg words maxWidth hmax x vx (by omega) hvx
    have hc0 := lineCost_nonneg words maxWidth hmax x y hxy hyn hfit
    rw [candidate] at hcand
    have hsum := roundFloat64_eq_zero _ (by omega) hcand.symm
    have hvx0 : vx = 0 := by omega
    have hcost0 : lineCost maxWidth words.length y (totalLen (cumLengths words) x y) = 0 := by
      omega
    subst hvx0
    refine ⟨hvx, ?_⟩
    intro p hp hpn
    simp only [List.tail_cons, List.zip_cons_cons, List.mem_cons] at hp
    rcases hp with rfl | hp
    · rw [← totalLen_eq words x y hxy hyn]
      exact lineCost_eq_zero words maxWidth hmax x y hxy hyn hpn hfit hcost0
    · exact hzrest p (by simpa using hp) hpn

/-- In an increasing list of break indices that ends at `n`, the pairs
before the last one are the pairs that do not end at `n`. -/
theorem mem_dropLast_pairs (n : Nat) :
    ∀ (bs : List Nat), bs.getLast? = some n →
      List.Chain' (fun a b => a < b ∧ b ≤ n) bs →
      ∀ p, p ∈ (bs.zip bs.tail).dropLast ↔ (p ∈ bs.zip bs.tail ∧ p.2 ≠ n)
  | [], _, _, p => by simp
  | [_], _, _, p => by simp
  | [x, y], hb, _, p => by
    simp at hb
    subst hb
    simp only [List.tail_cons, List.zip_cons_cons, List.zip_nil_right, List.dropLast_single,
      List.not_mem_nil, List.mem_singleton, false_iff, not_and, not_not]
    rintro rfl
    rfl
  | x :: y :: z :: rest, hb, hc, p => by
    rw [List.getLast?_cons_cons] at hb
    rw [List.chain'_cons] at hc
    have ih := mem_dropLast_pairs n (y :: z :: rest) hb hc.2 p
    have hyz : y < z := by
      have := hc.2
      rw [List.chain'_cons] at this
      exact this.1.1
    have hzn : z ≤ n := by
      have := hc.2
      rw [List.chain'_cons] at this
      exact this.1.2
    simp only [List.tail_cons, List.zip_cons_cons, List.dropLast_cons₂, List.mem_cons] at ih ⊢
    constructor
    · rintro (rfl | h)
      · exact ⟨Or.inl rfl, by simp only; omega⟩
      · have := ih.mp h
        exact ⟨Or.inr this.1, this.2⟩
    · rintro ⟨rfl | h, hn⟩
      · exact Or.inl rfl
      · exact Or.inr (ih.mpr ⟨h, hn⟩)

theorem mem_dropLast_buildLines (words : List String) (bs : List Nat)
    (hb : bs.getLast? = some words.length)
    (hc : List.Chain' (fun a b => a < b ∧ b ≤ words.length) bs) (line : String) :
    line ∈ (buildLines words bs).dropLast ↔
      ∃ p ∈ bs.zip bs.tail, p.2 ≠ words.length ∧
        line = strings.Join (slice words p.1 p.2) " " := by
  rw [buildLines, ← List.map_dropLast, List.mem_map]
  constructor
  · rintro ⟨p, hp, rfl⟩
    have := (mem_dropLast_pairs words.length bs hb hc p).mp hp
    exact ⟨p, this.1, this.2, rfl⟩
  · rintro ⟨p, hp, hn, rfl⟩
    exact ⟨p, (mem_dropLast_pairs words.length bs hb hc p).mpr ⟨hp, hn⟩, rfl⟩

/-- C11, as stated, fails at the width `2^63 - 1`: the one-line partition has
no line before the last, so all of them have no slack, and the first of the
two returned lines has width `1`. -/
theorem zero_slack_fails_at_max_int :
    Feasible ["a", "b"] 9223372036854775807 [0, 2] ∧
    (∀ line ∈ (buildLines ["a", "b"] [0, 2]).dropLast,
      (len line : Int) = 9223372036854775807) ∧
    KnuthPlass ["a", "b"] 9223372036854775807 = some ["a", "b"] ∧
    "a" ∈ ["a", "b"].dropLast ∧ (len "a" : Int) ≠ 9223372036854775807 := by
  refine ⟨⟨rfl, rfl, List.chain'_pair.mpr ⟨by decide, by decide!⟩⟩, by decide!, by decide!,
    by decide, by decide!⟩

/-- C11 (zero-slack partitions win, amended): for `maxWidth ≤ 2^21 - 1`,
when some feasible partition has no slack on any line except the last, every
returned line except the last has rendered width exactly `maxWidth`. -/
theorem zero_slack_wins (words : List String) (maxWidth : Int) (hne : words ≠ [])
    (hW : 0 < maxWidth) (hmax : maxWidth ≤ 2097151) (bs : List Nat)
    (hbs : Feasible words maxWidth bs)
    (hzero : ∀ line ∈ (buildLines words bs).dropLast, (len line : Int) = maxWidth) :
    ∃ lines, KnuthPlass words maxWidth = some lines ∧
      ∀ line ∈ lines.dropLast, (len line : Int) = maxWidth := by
  obtain ⟨bs0, hK, h0, hn, hc⟩ := KnuthPlass_eq words maxWidth hne hW
  refine ⟨_, hK, ?_⟩
  have hbnd := hbs.bounded
  have hinc : List.Chain' (fun a b => a < b ∧ b ≤ words.length) bs :=
    List.Chain'.imp (fun _ _ h => ⟨h.1.1, h.2⟩) hbnd
  have hpairs : ∀ p ∈ bs.zip bs.tail, p.2 ≠ words.length →
      (renderedWidth (slice words p.1 p.2) : Int) = maxWidth := by
    intro p hp hpn
    have hmem := (mem_dropLast_buildLines words bs hbs.2.1 hinc
      (strings.Join (slice words p.1 p.2) " ")).mpr ⟨p, hp, hpn, rfl⟩
    have := hzero _ hmem
    rwa [len_Join] at this
  have hend := minCost_zero_of_no_slack words maxWidth hmax bs 0 hbs.1 hbs.2.1 hbnd hpairs
    (fillTables_inv words maxWidth).start
  obtain ⟨_, hres⟩ := no_slack_of_minCost_zero words maxWidth hmax bs0 0 words.length h0 hn
    hc hend
  intro line hline
  obtain ⟨p, hp, hpn, rfl⟩ :=
    (mem_dropLast_buildLines words bs0 hn (BreakStep.weaken hc) line).mp hline
  rw [len_Join]
  exact hres p hp hpn

/-- The test case of the five one-letter words at width 3, against the
partition `a b`, `c d`, `e`. -/
theorem zero_slack_wins_witness :
    ["a", "b", "c", "d", "e"] ≠ [] ∧ (0 : Int) < 3 ∧ (3 : Int) ≤ 2097151 ∧
    Feasible ["a", "b", "c", "d", "e"] 3 [0, 2, 4, 5] ∧
    (∀ line ∈ (buildLines ["a", "b", "c", "d", "e"] [0, 2, 4, 5]).dropLast,
      (len line : Int) = 3) ∧
    KnuthPlass ["a", "b", "c", "d", "e"] 3 = some ["a b", "c d", "e"] ∧
    ∃ lines, KnuthPlass ["a", "b", "c", "d", "e"] 3 = some lines ∧
      ∀ line ∈ lines.dropLast, (len line : Int) = 3 :=
  have hfeas : Feasible ["a", "b", "c", "d", "e"] 3 [0, 2, 4, 5] := by
    refine ⟨rfl, rfl, ?_⟩
    simp only [List.chain'_cons, List.chain'_singleton, and_true]
    decide!
  have hzero : ∀ line ∈ (buildLines ["a", "b", "c", "d", "e"] [0, 2, 4, 5]).dropLast,
      (len line : Int) = 3 := by decide!
  ⟨by decide, by decide, by decide, hfeas, hzero, by decide!,
    zero_slack_wins ["a", "b", "c", "d", "e"] 3 (by decide) (by decide) (by decide)
      [0, 2, 4, 5] hfeas hzero⟩

/-- Reachability of the index `1` on the input with the overlong word. -/
theorem minCost_finite_iff_witness :
    ["a", "toolongword", "b"] ≠ [] ∧ (0 : Int) < 3 ∧ 1 ≤ ["a", "toolongword", "b"].length ∧
    (finalMinCost ["a", "toolongword", "b"] 3 0 = some 0 ∧
    ((∃ v, finalMinCost ["a", "toolongword", "b"] 3 1 = some v)
      ↔ ∃ bs, FeasiblePrefix ["a", "toolongword", "b"] 3 1 bs)) :=
  ⟨by decide, by decide, by decide,
    minCost_finite_iff ["a", "toolongword", "b"] 3 (by decide) (by decide) 1 (by decide)⟩

/-- The end is reachable for two five-letter words at width 5, and both
words fit. -/
theorem minCost_end_finite_iff_witness :
    ["hello", "world"] ≠ [] ∧ (0 : Int) < 5 ∧
    ((∃ v, finalMinCost ["hello", "world"] 5 ["hello", "world"].length = some v)
      ↔ ∀ w ∈ ["hello", "world"], (len w : Int) ≤ 5) :=
  ⟨by decide, by decide, minCost_end_finite_iff ["hello", "world"] 5 (by decide) (by decide)⟩

/-- The collapse on the input with the overlong word. -/
theorem KnuthPlass_collapse_witness :
    ["a", "toolongword", "b"] ≠ [] ∧ (0 : Int) < 3 ∧
    (∃ w ∈ ["a", "toolongword", "b"], (3 : Int) < (len w : Int)) ∧
    strings.Join ["a", "toolongword", "b"] " " = "a toolongword b" ∧
    (finalMinCost ["a", "toolongword", "b"] 3 ["a", "toolongword", "b"].length = none ∧
    finalLineBreak ["a", "toolongword", "b"] 3 ["a", "toolongword", "b"].length = 0 ∧
    KnuthPlass ["a", "toolongword", "b"] 3
      = some [strings.Join ["a", "toolongword", "b"] " "]) :=
  have hlong : ∃ w ∈ ["a", "toolongword", "b"], (3 : Int) < (len w : Int) :=
    ⟨"toolongword", by simp, by decide!⟩
  ⟨by decide, by decide, hlong, by decide!,
    KnuthPlass_collapse ["a", "toolongword", "b"] 3 (by decide) (by decide) hlong⟩

end Linebreak
